import Mathlib

/-!
# Netscape bookmark file to JSON converter: a shallow embedding of `parser.go`

The development follows `src/parser.go` function by function:

* `removeUnwantedElements` (the text preprocessor, six `strings.ReplaceAll` steps),
* `getAttribute`, `getNodeText` (metadata extraction),
* `parseDLNode` (the tree extractor with its heading/list lookahead),
* `findBodyDL` and `ParseNetscapeBookmarks` (locator and orchestrator).

The node tree built by `golang.org/x/net/html` is an external data type. It is
embedded as a finite rose tree: `FirstChild`/`NextSibling` chains become the
list `children`, so "the siblings after `c`" is the tail of the list that
starts at `c`. Go strings are embedded as Lean strings (sequences of code
points); every pattern the program searches for is ASCII.
-/

namespace NetscapeBookmarks

/-! ## Data model -/

/-- Node kinds of `golang.org/x/net/html` (`html.NodeType`). -/
inductive NodeType where
  | ErrorNode
  | TextNode
  | DocumentNode
  | ElementNode
  | CommentNode
  | DoctypeNode
  | RawNode
deriving DecidableEq, Repr

/-- An attribute of an element (`html.Attribute`). -/
structure Attribute where
  Namespace : String
  Key : String
  Val : String
deriving DecidableEq, Repr

/-- A node of the parsed document (`html.Node`). `Type_` is the field `Type`,
`children` is the `FirstChild`, `NextSibling`, ... chain in document order. -/
inductive Node where
  | mk (Type_ : NodeType) (Data : String) (Attr : List Attribute) (children : List Node)
deriving Repr

/-- Field `Type` of a node. -/
def Node.Type_ : Node → NodeType
  | .mk t _ _ _ => t

/-- Field `Data` of a node: the tag name of an element, the text of a text node. -/
def Node.Data : Node → String
  | .mk _ d _ _ => d

/-- Field `Attr` of a node. -/
def Node.Attr : Node → List Attribute
  | .mk _ _ a _ => a

/-- The children of a node, first child first. -/
def Node.children : Node → List Node
  | .mk _ _ _ cs => cs

/-- The Go struct `BookmarkItem`. `Type_` is the field `Type`. A nil slice and
an empty slice are both the empty list: the two have length 0 and are treated
alike by `omitempty`. -/
inductive BookmarkItem where
  | mk (Type_ Name Href Tags ID AddDate LastModified Icon IconURI : String)
      (Children : List BookmarkItem)
deriving Repr

/-- Field `Type`. -/
def BookmarkItem.Type_ : BookmarkItem → String
  | .mk t _ _ _ _ _ _ _ _ _ => t

/-- Field `Name`. -/
def BookmarkItem.Name : BookmarkItem → String
  | .mk _ n _ _ _ _ _ _ _ _ => n

/-- Field `Href`. -/
def BookmarkItem.Href : BookmarkItem → String
  | .mk _ _ h _ _ _ _ _ _ _ => h

/-- Field `Tags`. -/
def BookmarkItem.Tags : BookmarkItem → String
  | .mk _ _ _ t _ _ _ _ _ _ => t

/-- Field `ID`. -/
def BookmarkItem.ID : BookmarkItem → String
  | .mk _ _ _ _ i _ _ _ _ _ => i

/-- Field `AddDate`. -/
def BookmarkItem.AddDate : BookmarkItem → String
  | .mk _ _ _ _ _ a _ _ _ _ => a

/-- Field `LastModified`. -/
def BookmarkItem.LastModified : BookmarkItem → String
  | .mk _ _ _ _ _ _ l _ _ _ => l

/-- Field `Icon`. -/
def BookmarkItem.Icon : BookmarkItem → String
  | .mk _ _ _ _ _ _ _ i _ _ => i

/-- Field `IconURI`. -/
def BookmarkItem.IconURI : BookmarkItem → String
  | .mk _ _ _ _ _ _ _ _ u _ => u

/-- Field `Children`. -/
def BookmarkItem.Children : BookmarkItem → List BookmarkItem
  | .mk _ _ _ _ _ _ _ _ _ c => c

/-! ## Library functions used by the program -/

/-- Go `unicode.IsSpace`: the Latin-1 spaces `\t \n \v \f \r`, space, U+0085,
U+00A0, and the code points with the Unicode White_Space property. -/
def isSpace (c : Char) : Bool :=
  let n := c.toNat
  (9 ≤ n && n ≤ 13) || n = 0x20 || n = 0x85 || n = 0xA0 || n = 0x1680 ||
  (0x2000 ≤ n && n ≤ 0x200A) || n = 0x2028 || n = 0x2029 || n = 0x202F ||
  n = 0x205F || n = 0x3000

/-- Go `strings.TrimSpace`: drop the leading and the trailing run of spaces. -/
def TrimSpace (s : String) : String :=
  String.mk ((s.data.dropWhile isSpace).reverse.dropWhile isSpace).reverse

/-- The scan of Go `strings.ReplaceAll(s, old, new)` for a non-empty `old`, on
character lists: left to right; at an occurrence of `old` emit `new` and go on
after the occurrence (occurrences do not overlap), otherwise copy one character. -/
def replaceAllChars (old new : List Char) : List Char → List Char
  | [] => []
  | c :: cs =>
    if old.isPrefixOf (c :: cs) then
      new ++ replaceAllChars old new (cs.drop (old.length - 1))
    else
      c :: replaceAllChars old new cs
termination_by l => l.length
decreasing_by
  all_goals simp_wf
  omega

/-- Go `strings.ReplaceAll`. An empty `old` matches before every character and
at the end of the string. -/
def ReplaceAll (s old new : String) : String :=
  if old = "" then
    String.mk (new.data ++ s.data.flatMap (fun c => c :: new.data))
  else
    String.mk (replaceAllChars old.data new.data s.data)

/-! ## `parser.go` -/

/-- The function `removeUnwantedElements` of `parser.go`. -/
def removeUnwantedElements (fileContent : String) : String :=
  let content := fileContent
  let content := ReplaceAll content "<p>" ""
  let content := ReplaceAll content "<P>" ""
  let content := ReplaceAll content "</p>" ""
  let content := ReplaceAll content "</P>" ""
  let content := ReplaceAll content "<DT>" ""
  let content := ReplaceAll content "<dt>" ""
  content

/-- The loop of `getAttribute`: the value of the first attribute whose key is
`key`, the empty string when there is none. -/
def getAttributeLoop (key : String) : List Attribute → String
  | [] => ""
  | attr :: attrs => if attr.Key = key then attr.Val else getAttributeLoop key attrs

/-- The function `getAttribute` of `parser.go`, for a node that is not nil (the
program never calls it on nil). -/
def getAttribute (n : Node) (key : String) : String :=
  getAttributeLoop key n.Attr

mutual
/-- The function `getNodeText` of `parser.go`. -/
def getNodeText : Node → String
  | .mk t d _ cs =>
    if t = NodeType.TextNode then d
    else if t ≠ NodeType.ElementNode then ""
    else TrimSpace (getNodeTextChildren cs)
/-- The loop of `getNodeText`: what `buf` holds after the children are written. -/
def getNodeTextChildren : List Node → String
  | [] => ""
  | c :: cs => getNodeText c ++ getNodeTextChildren cs
end

/-- The lookahead of `parseDLNode` after a heading: skip the siblings that are
not elements; when the first element is a `dl`, it is `folderDLNode`, returned
with the siblings that follow it; otherwise `folderDLNode` stays nil. -/
def findFolderDL : List Node → Option (Node × List Node)
  | [] => none
  | nextNode :: rest =>
    if nextNode.Type_ = NodeType.ElementNode then
      if nextNode.Data = "dl" then some (nextNode, rest) else none
    else findFolderDL rest

/-- The item built for a link element (`case "a"`). -/
def bookmarkItem (c : Node) : BookmarkItem :=
  .mk "bookmark" (getNodeText c) (getAttribute c "href") (getAttribute c "tags")
    (getAttribute c "id") (getAttribute c "add_date") (getAttribute c "last_modified")
    (getAttribute c "icon") (getAttribute c "icon_uri") []

/-- The item built for a separator element (`case "hr"`). -/
def separatorItem : BookmarkItem :=
  .mk "separator" "" "" "" "" "" "" "" "" []

/-- The item built for a heading element (`case "h3"`) once its children are known. -/
def folderItem (c : Node) (children : List BookmarkItem) : BookmarkItem :=
  .mk "folder" (getNodeText c) "" "" (getAttribute c "id") (getAttribute c "add_date")
    (getAttribute c "last_modified") "" "" children

/-- The loop of `parseDLNode`, from the cursor at the head of the list to the
last sibling: the items appended from here on, or the error returned. The
recursive call `parseDLNode(folderDLNode)` is the loop run on the children of
`folderDLNode`; after it, `c = folderDLNode` makes the loop go on with the
siblings after `folderDLNode`. -/
def parseSiblings : List Node → Except String (List BookmarkItem)
  | [] => .ok []
  | c :: rest =>
    if c.Type_ ≠ NodeType.ElementNode then parseSiblings rest
    else if c.Data = "a" then
      match parseSiblings rest with
      | .error err => .error err
      | .ok items => .ok (bookmarkItem c :: items)
    else if c.Data = "hr" then
      match parseSiblings rest with
      | .error err => .error err
      | .ok items => .ok (separatorItem :: items)
    else if c.Data = "h3" then
      match h : findFolderDL rest with
      | some (folderDLNode, after) =>
        match parseSiblings folderDLNode.children with
        | .error err =>
          .error ("parsing children for folder '" ++ getNodeText c ++ "': " ++ err)
        | .ok children =>
          match parseSiblings after with
          | .error err => .error err
          | .ok items => .ok (folderItem c children :: items)
      | none =>
        match parseSiblings rest with
        | .error err => .error err
        | .ok items => .ok (folderItem c [] :: items)
    else parseSiblings rest
termination_by l => sizeOf l
decreasing_by
  all_goals simp_wf
  all_goals first
    | omega
    | (have key : ∀ (l : List Node) (d : Node) (tl : List Node),
          findFolderDL l = some (d, tl) → sizeOf d.children + sizeOf tl < sizeOf l := by
        intro l
        induction l with
        | nil => intro d tl hl; simp [findFolderDL] at hl
        | cons n ns ih =>
          intro d tl hl
          simp only [findFolderDL] at hl
          split at hl
          · split at hl
            · simp only [Option.some.injEq, Prod.mk.injEq] at hl
              obtain ⟨rfl, rfl⟩ := hl
              cases n with
              | mk t dd a cs => simp [Node.children]; omega
            · simp at hl
          · have := ih d tl hl
            simp only [List.cons.sizeOf_spec]
            omega
       have := key _ _ _ h
       omega)

/-- The function `parseDLNode` of `parser.go`. -/
def parseDLNode (dlNode : Node) : Except String (List BookmarkItem) :=
  parseSiblings dlNode.children

/-- The first loop of `findBodyDL`: the first direct child that is a `dl` element. -/
def firstDLChild : List Node → Option Node
  | [] => none
  | c :: cs =>
    if c.Type_ = NodeType.ElementNode ∧ c.Data = "dl" then some c else firstDLChild cs

mutual
/-- The closure `findBodyDL` of `ParseNetscapeBookmarks`; `none` is nil. -/
def findBodyDL : Node → Option Node
  | .mk t d _ cs =>
    if t = NodeType.ElementNode ∧ d = "body" then
      match firstDLChild cs with
      | some c => some c
      | none => findBodyDLChildren cs
    else findBodyDLChildren cs
/-- The second loop of `findBodyDL`: the first child in which the search succeeds. -/
def findBodyDLChildren : List Node → Option Node
  | [] => none
  | c :: cs =>
    match findBodyDL c with
    | some found => some found
    | none => findBodyDLChildren cs
end

/-- The function `ParseNetscapeBookmarks` of `parser.go`. The two library calls
are parameters: `readAll` is the outcome of `io.ReadAll(reader)` and `htmlParse`
is `html.Parse` on a string. -/
def ParseNetscapeBookmarks (readAll : Except String String)
    (htmlParse : String → Except String Node) : Except String (List BookmarkItem) :=
  match readAll with
  | .error err => .error ("failed to read input: " ++ err)
  | .ok fileContent =>
    let htmlContent := removeUnwantedElements fileContent
    match htmlParse htmlContent with
    | .error err => .error ("failed to parse HTML content: " ++ err)
    | .ok doc =>
      match findBodyDL doc with
      | some rootDL =>
        match parseDLNode rootDL with
        | .error parseErr => .error ("failed to parse bookmark structure: " ++ parseErr)
        | .ok parsedItems => .ok parsedItems
      | none => .ok []

/-! ## The JSON encoding of an item -/

/-- The JSON values that `encoding/json` produces for a `BookmarkItem`: strings,
arrays and objects; an object keeps its keys in the order they are written. -/
inductive JsonValue where
  | str (s : String)
  | arr (elems : List JsonValue)
  | obj (fields : List (String × JsonValue))
deriving Repr

/-- A string field tagged `omitempty`: left out when the string is empty. -/
def omitEmpty (key value : String) : List (String × JsonValue) :=
  if value = "" then [] else [(key, JsonValue.str value)]

mutual
/-- The object `json.Marshal` writes for a `BookmarkItem`, read off the struct
tags: `type` and `name` carry no `omitempty` and are always written; the other
fields are tagged `omitempty` and are written only when not empty (for
`children`: when the slice has at least one element). Fields come in the order
of the struct. -/
def marshalItem : BookmarkItem → JsonValue
  | .mk type name href tags id addDate lastModified icon iconURI children =>
    JsonValue.obj
      ([("type", JsonValue.str type), ("name", JsonValue.str name)]
        ++ omitEmpty "href" href
        ++ omitEmpty "tags" tags
        ++ omitEmpty "id" id
        ++ omitEmpty "add_date" addDate
        ++ omitEmpty "last_modified" lastModified
        ++ omitEmpty "icon" icon
        ++ omitEmpty "icon_uri" iconURI
        ++ (match children with
            | [] => []
            | child :: more =>
              [("children", JsonValue.arr (marshalItem child :: marshalItems more))]))
/-- The array elements written for a slice of items. -/
def marshalItems : List BookmarkItem → List JsonValue
  | [] => []
  | item :: items => marshalItem item :: marshalItems items
end

/-! ## Notions used to state the properties -/

/-- The item type a child of a list stands for: `a`, `hr` and `h3` elements are
the markers; every other node stands for nothing. -/
def markerType (c : Node) : Option String :=
  if c.Type_ = NodeType.ElementNode then
    if c.Data = "a" then some "bookmark"
    else if c.Data = "hr" then some "separator"
    else if c.Data = "h3" then some "folder"
    else none
  else none

/-- The number of markers in a run of siblings: the position, in the output, of
the item emitted for the sibling that follows the run. -/
def countMarkers (l : List Node) : Nat :=
  (l.filterMap markerType).length

/-- A node is an element (of any tag). -/
def isElementNode (n : Node) : Bool :=
  n.Type_ = NodeType.ElementNode

/-- A node is the element with the given tag. -/
def isTag (tag : String) (n : Node) : Bool :=
  n.Type_ = NodeType.ElementNode ∧ n.Data = tag

/-- The value of the first attribute of `n` whose key is `key`, if there is one. -/
def firstAttr (n : Node) (key : String) : Option String :=
  (n.Attr.find? (fun attr => attr.Key = key)).map (fun attr => attr.Val)

mutual
/-- The text of a subtree: the `Data` of its text nodes, concatenated in
pre-order (a node before its children, children in document order). -/
def subtreeText : Node → String
  | .mk t d _ cs =>
    (if t = NodeType.TextNode then d else "") ++ subtreeTextList cs
/-- The text of a run of subtrees. -/
def subtreeTextList : List Node → String
  | [] => ""
  | c :: cs => subtreeText c ++ subtreeTextList cs
end

/-- The concatenation of the `Data` of all text nodes that are descendants of
`e`, in pre-order document order. -/
def descendantText (e : Node) : String :=
  subtreeTextList e.children

mutual
/-- The nodes of a subtree in pre-order. -/
def preorder : Node → List Node
  | .mk t d a cs => Node.mk t d a cs :: preorderList cs
/-- The nodes of a run of subtrees in pre-order. -/
def preorderList : List Node → List Node
  | [] => []
  | c :: cs => preorder c ++ preorderList cs
end

/-- Some body element of the tree has a direct child that is a `dl` element. -/
def hasBodyDL (doc : Node) : Bool :=
  (preorder doc).any (fun n => isTag "body" n && n.children.any (isTag "dl"))

/-- The tree contains a `dl` element. -/
def containsDL (doc : Node) : Bool :=
  (preorder doc).any (isTag "dl")

mutual
/-- The data-model invariant of an item and of all items below it. -/
def wellShaped : BookmarkItem → Prop
  | .mk type name href tags id addDate lastModified icon iconURI children =>
    (type = "bookmark" ∨ type = "folder" ∨ type = "separator") ∧
    (type = "bookmark" → children = []) ∧
    (type = "folder" → href = "" ∧ tags = "" ∧ icon = "" ∧ iconURI = "") ∧
    (type = "separator" →
      name = "" ∧ href = "" ∧ tags = "" ∧ id = "" ∧ addDate = "" ∧
      lastModified = "" ∧ icon = "" ∧ iconURI = "" ∧ children = []) ∧
    wellShapedList children
/-- The invariant on every item of a sequence. -/
def wellShapedList : List BookmarkItem → Prop
  | [] => True
  | item :: items => wellShaped item ∧ wellShapedList items
end

/-! ## Example documents (from `parser_test.go`) -/

/-- A text node. -/
def textNode (data : String) : Node :=
  .mk NodeType.TextNode data [] []

/-- An element node. -/
def elementNode (tag : String) (attr : List Attribute) (children : List Node) : Node :=
  .mk NodeType.ElementNode tag attr children

/-- The link of the test "Simple folder". -/
def childLink : Node :=
  elementNode "a" [⟨"", "href", "https://child.com"⟩] [textNode "Child Link"]

/-- The inner list of the test "Simple folder". -/
def childList : Node :=
  elementNode "dl" [] [textNode "\n", childLink, textNode "\n"]

/-- The heading of the test "Simple folder". -/
def myFolderHeading : Node :=
  elementNode "h3"
    [⟨"", "add_date", "1678886400"⟩, ⟨"", "last_modified", "1678886401"⟩,
      ⟨"", "id", "folder_id_1"⟩]
    [textNode "My Folder"]

/-- The root list of the test "Simple folder". -/
def simpleFolderList : Node :=
  elementNode "dl" [] [textNode "\n", myFolderHeading, textNode "\n", childList, textNode "\n"]

/-- The link of the test "Simple bookmark". -/
def exampleLink : Node :=
  elementNode "a"
    [⟨"", "href", "https://example.com"⟩, ⟨"", "add_date", "1678886400"⟩,
      ⟨"", "last_modified", "1678886401"⟩, ⟨"", "tags", "tag1,tag2"⟩,
      ⟨"", "icon_uri", "https://example.com/icon.png"⟩,
      ⟨"", "icon", "data:image/png;base64,iVBORw0KGgo="⟩, ⟨"", "id", "test_id_1"⟩]
    [textNode "Example"]

/-- The root list of the test "Simple bookmark". -/
def simpleBookmarkList : Node :=
  elementNode "dl" [] [textNode "\n", exampleLink, textNode "\n"]

/-- A link whose text is split between a nested element and a text node:
`<A HREF="https://example.com"><B>Hello </B>World</A>`. -/
def boldLink : Node :=
  elementNode "a" [⟨"", "href", "https://example.com"⟩]
    [elementNode "b" [] [textNode "Hello "], textNode "World"]

/-- A list holding `boldLink` only. -/
def boldLinkList : Node :=
  elementNode "dl" [] [boldLink]

/-- The document `html.Parse` builds for `<DIV><DL><A HREF="https://child.com">Child
Link</A></DL></DIV>`: the list is a child of a `div`, not of the body. -/
def divDocument : Node :=
  .mk NodeType.DocumentNode "" []
    [elementNode "html" []
      [elementNode "head" [] [],
        elementNode "body" [] [elementNode "div" [] [childList]]]]

/-- The body element of `simpleFolderDocument`. -/
def simpleFolderBody : Node :=
  elementNode "body" []
    [elementNode "h1" [] [textNode "Bookmarks"], textNode "\n", simpleFolderList,
      textNode "\n"]

/-- The document of the test "Simple folder": the root list is a child of the body. -/
def simpleFolderDocument : Node :=
  .mk NodeType.DocumentNode "" []
    [.mk NodeType.DoctypeNode "netscape-bookmark-file-1" [] [],
      elementNode "html" []
        [elementNode "head" [] [elementNode "title" [] [textNode "Bookmarks"]],
          simpleFolderBody]]

/-- The document of the test "No root DL in body": no list at all. -/
def noListDocument : Node :=
  .mk NodeType.DocumentNode "" []
    [.mk NodeType.DoctypeNode "netscape-bookmark-file-1" [] [],
      elementNode "html" []
        [elementNode "head" [] [elementNode "title" [] [textNode "Bookmarks"]],
          elementNode "body" []
            [elementNode "h1" [] [textNode "Bookmarks"], textNode "\n",
              textNode "No bookmarks here.", textNode "\n"]]]

/-- What the locator looks for at one node: the first direct `dl` child of a
body element. -/
def bodyDL (n : Node) : Option Node :=
  if isTag "body" n then n.children.find? (isTag "dl") else none

/-- A separator element that carries attributes: `<HR SIZE="2" ID="sep1">`. -/
def ruleWithAttributes : Node :=
  elementNode "hr" [⟨"", "size", "2"⟩, ⟨"", "id", "sep1"⟩] []

/-- The first link of the test "Separator". -/
def site1Link : Node :=
  elementNode "a" [⟨"", "href", "https://site1.com"⟩] [textNode "Site 1"]

/-- The second link of the test "Separator". -/
def site2Link : Node :=
  elementNode "a" [⟨"", "href", "https://site2.com"⟩] [textNode "Site 2"]

/-- The root list of the test "Separator", its separator carrying attributes. -/
def separatorList : Node :=
  elementNode "dl" [] [site1Link, ruleWithAttributes, site2Link]

/-- A stand-in for `html.Parse` that builds the given document from any text. -/
def parseTo (doc : Node) : String → Except String Node :=
  fun _ => .ok doc

/-- The substrings that `removeUnwantedElements` removes, in the order of its steps. -/
def removedTags : List String :=
  ["<p>", "<P>", "</p>", "</P>", "<DT>", "<dt>"]

/-- The text `old` occurs in the text `s`. -/
def occursIn (old s : String) : Prop :=
  old.data <:+: s.data

/-- A small export in the shape of the tests: a list with one link. -/
def sampleExport : String :=
  "<DL><p>\n<DT><A HREF=\"u\">x</A>\n</DL><p>"

/-- A heading directly followed by a link: `<H3>Empty</H3><A HREF="https://child.com">Child
Link</A>`. -/
def emptyHeading : Node :=
  elementNode "h3" [] [textNode "Empty"]

/-- A list in which the heading is followed by a link, not by a list. -/
def headingThenLinkList : Node :=
  elementNode "dl" [] [emptyHeading, childLink]

/-- A list without marker children: text, a comment, a paragraph and a nested
list (not preceded by a heading) that holds a link. -/
def markerlessList : Node :=
  elementNode "dl" []
    [textNode "\n", .mk NodeType.CommentNode " note " [] [],
      elementNode "p" [] [textNode "No bookmarks here."], childList]

/-- The list tree made of nested heading-then-list pairs: one pair per heading of
`headings`, outermost first, each list holding exactly one heading and its list,
and the innermost list holding the single link `link`. -/
def nestedList (link : Node) : List Node → Node
  | [] => elementNode "dl" [] [link]
  | heading :: headings => elementNode "dl" [] [heading, nestedList link headings]

/-- An item is the head of a chain of `n` folders, each with a one-element
`Children` sequence, that ends in the bookmark of `link`. -/
def isFolderChain (link : Node) : Nat → BookmarkItem → Prop
  | 0, item => item = bookmarkItem link
  | n + 1, item =>
    item.Type_ = "folder" ∧ ∃ child, item.Children = [child] ∧ isFolderChain link n child

/-- The headings of the test "Nested folders", outermost first. -/
def nestedHeadings : List Node :=
  [elementNode "h3" [] [textNode "Parent"], elementNode "h3" [] [textNode "Child"]]

/-- The link of the test "Nested folders". -/
def grandchildLink : Node :=
  elementNode "a" [⟨"", "href", "https://grandchild.com"⟩] [textNode "Grandchild Link"]

/-- A body element has a direct child that is a `dl` element. -/
def isBodyWithDL (n : Node) : Bool :=
  isTag "body" n && n.children.any (isTag "dl")

mutual
/-- A node with the non-element children removed at every list level: the
children of a `dl` element are filtered, and so on below it. The children of
any other node (the text of a link or of a heading) are left as they are. -/
def stripNode : Node → Node
  | .mk t d a cs =>
    if t = NodeType.ElementNode ∧ d = "dl" then .mk t d a (stripSiblings cs) else .mk t d a cs
/-- A run of siblings with the nodes that are not elements removed, and the
lists among the remaining elements stripped in the same way. -/
def stripSiblings : List Node → List Node
  | [] => []
  | c :: cs =>
    if c.Type_ = NodeType.ElementNode then stripNode c :: stripSiblings cs
    else stripSiblings cs
end

/-- The list `L` with all non-element direct children removed, at every list level. -/
def withoutNonElements (L : Node) : Node :=
  .mk L.Type_ L.Data L.Attr (stripSiblings L.children)

mutual
/-- Every bookmark and folder, at any depth below and including the item, has a
name that equals its own whitespace-trim. -/
def namesTrimmed : BookmarkItem → Prop
  | .mk type name _ _ _ _ _ _ _ children =>
    (type = "bookmark" ∨ type = "folder" → TrimSpace name = name) ∧ namesTrimmedList children
/-- The same for every item of a sequence. -/
def namesTrimmedList : List BookmarkItem → Prop
  | [] => True
  | item :: items => namesTrimmed item ∧ namesTrimmedList items
end

/-- The number of positions of the text at which an occurrence of `old` starts. -/
def countOccurrences (old : List Char) : List Char → Nat
  | [] => 0
  | c :: cs => (if old.isPrefixOf (c :: cs) then 1 else 0) + countOccurrences old cs

/-- The number of occurrences of `old` in `s`. -/
def occurrences (old s : String) : Nat :=
  countOccurrences old.data s.data

/-- A text of the shape of a tag: `<`, then characters other than `<` and `>`,
then `>`. -/
def TagText (t : List Char) : Prop :=
  ∃ body, t = '<' :: (body ++ ['>']) ∧ '<' ∉ body ∧ '>' ∉ body

/-- From the start of the text, a `>` comes before any `<` (or there is no `<`). -/
def closesBeforeNextOpen : List Char → Bool
  | [] => true
  | c :: cs => if c = '<' then false else if c = '>' then true else closesBeforeNextOpen cs

/-- No `<` of the text is followed by another `<` before the next `>`: tags are
not nested in one another. -/
def tagsNotNested : List Char → Bool
  | [] => true
  | c :: cs => (if c = '<' then closesBeforeNextOpen cs else true) && tagsNotNested cs

/-! ## The lookahead -/

theorem findFolderDL_eq_some {l : List Node} {d : Node} {after : List Node}
    (h : findFolderDL l = some (d, after)) :
    ∃ skipped, l = skipped ++ d :: after ∧
      (∀ n ∈ skipped, n.Type_ ≠ NodeType.ElementNode) ∧
      d.Type_ = NodeType.ElementNode ∧ d.Data = "dl" := by
  induction l with
  | nil => simp [findFolderDL] at h
  | cons n ns ih =>
    simp only [findFolderDL] at h
    by_cases hn : n.Type_ = NodeType.ElementNode
    · by_cases hd : n.Data = "dl"
      · simp only [hn, hd, if_true, Option.some.injEq, Prod.mk.injEq] at h
        obtain ⟨rfl, rfl⟩ := h
        exact ⟨[], rfl, by simp, hn, hd⟩
      · simp [hn, hd] at h
    · simp only [hn, if_false] at h
      obtain ⟨sk, hl, hsk, hd⟩ := ih h
      refine ⟨n :: sk, by simp [hl], ?_, hd⟩
      intro m hm
      rcases List.mem_cons.mp hm with rfl | hm
      · exact hn
      · exact hsk m hm

theorem findFolderDL_skip (skipped l : List Node)
    (hsk : ∀ n ∈ skipped, n.Type_ ≠ NodeType.ElementNode) :
    findFolderDL (skipped ++ l) = findFolderDL l := by
  induction skipped with
  | nil => rfl
  | cons n ns ih =>
    have hn : n.Type_ ≠ NodeType.ElementNode := hsk n (List.mem_cons_self _ _)
    simp only [List.cons_append, findFolderDL, hn, if_false]
    exact ih (fun m hm => hsk m (List.mem_cons_of_mem _ hm))

theorem findFolderDL_element (c : Node) (rest : List Node)
    (hc : c.Type_ = NodeType.ElementNode) :
    findFolderDL (c :: rest) = if c.Data = "dl" then some (c, rest) else none := by
  simp [findFolderDL, hc]

/-- The lookahead finds `d` exactly when `d` is the first element among the
siblings and is a `dl`. -/
theorem findFolderDL_of_find {l : List Node} {d : Node}
    (h : l.find? isElementNode = some d) (hd : d.Data = "dl") :
    ∃ after, findFolderDL l = some (d, after) := by
  induction l with
  | nil => simp at h
  | cons n ns ih =>
    by_cases hn : n.Type_ = NodeType.ElementNode
    · have : isElementNode n = true := by simp [isElementNode, hn]
      simp only [List.find?, this, Option.some.injEq] at h
      subst h
      exact ⟨ns, by simp [findFolderDL, hn, hd]⟩
    · have : isElementNode n = false := by simp [isElementNode, hn]
      simp only [List.find?, this] at h
      obtain ⟨after, ha⟩ := ih h
      exact ⟨after, by simp [findFolderDL, hn, ha]⟩

theorem findFolderDL_none_of_find {l : List Node}
    (h : ∀ d, l.find? isElementNode = some d → d.Data ≠ "dl") :
    findFolderDL l = none := by
  induction l with
  | nil => rfl
  | cons n ns ih =>
    by_cases hn : n.Type_ = NodeType.ElementNode
    · have hp : isElementNode n = true := by simp [isElementNode, hn]
      have := h n (by simp [List.find?, hp])
      simp [findFolderDL, hn, this]
    · have hp : isElementNode n = false := by simp [isElementNode, hn]
      simp only [findFolderDL, hn, if_false]
      exact ih (fun d hd => h d (by simpa [List.find?, hp] using hd))

/-! ## Unfolding the loop of `parseDLNode` -/

theorem findFolderDL_sizeOf {l : List Node} {d : Node} {after : List Node}
    (h : findFolderDL l = some (d, after)) :
    sizeOf d.children + sizeOf after < sizeOf l := by
  obtain ⟨skipped, rfl, -, -⟩ := findFolderDL_eq_some h
  have happ : ∀ (xs ys : List Node), sizeOf ys ≤ sizeOf (xs ++ ys) := by
    intro xs ys
    induction xs with
    | nil => simp
    | cons x xs ih => simp only [List.cons_append, List.cons.sizeOf_spec]; omega
  have h1 := happ skipped (d :: after)
  cases d with
  | mk t dd a cs =>
    simp only [List.cons.sizeOf_spec, Node.mk.sizeOf_spec, Node.children] at h1 ⊢
    omega

/-- Induction along the calls of the loop: to the following siblings, and after
a paired heading to the children of its list and to the siblings after it. -/
theorem siblings_induction {motive : List Node → Prop} (hnil : motive [])
    (hcons : ∀ c rest, motive rest →
      (∀ d after, findFolderDL rest = some (d, after) → motive d.children ∧ motive after) →
      motive (c :: rest)) :
    ∀ l, motive l := by
  intro l
  generalize hn : sizeOf l = n
  induction n using Nat.strong_induction_on generalizing l with
  | _ n ih =>
    cases l with
    | nil => exact hnil
    | cons c rest =>
      subst hn
      refine hcons c rest (ih _ (by simp only [List.cons.sizeOf_spec]; omega) rest rfl) ?_
      intro d after hf
      have hs := findFolderDL_sizeOf hf
      constructor
      · exact ih _ (by simp only [List.cons.sizeOf_spec]; omega) _ rfl
      · exact ih _ (by simp only [List.cons.sizeOf_spec]; omega) _ rfl

theorem parseSiblings_nil : parseSiblings [] = .ok [] := by
  rw [parseSiblings]

theorem parseSiblings_skip (c : Node) (rest : List Node) (h : markerType c = none) :
    parseSiblings (c :: rest) = parseSiblings rest := by
  rw [parseSiblings]
  by_cases hc : c.Type_ = NodeType.ElementNode
  · simp only [markerType, hc, if_true] at h
    by_cases ha : c.Data = "a"
    · simp [ha] at h
    · by_cases hr : c.Data = "hr"
      · simp [hr] at h
      · by_cases hh : c.Data = "h3"
        · simp [hh] at h
        · simp [hc, ha, hr, hh]
  · simp [hc]

theorem parseSiblings_a (c : Node) (rest : List Node) (items : List BookmarkItem)
    (hc : c.Type_ = NodeType.ElementNode) (ha : c.Data = "a")
    (h : parseSiblings rest = .ok items) :
    parseSiblings (c :: rest) = .ok (bookmarkItem c :: items) := by
  rw [parseSiblings]
  simp [hc, ha, h]

theorem parseSiblings_hr (c : Node) (rest : List Node) (items : List BookmarkItem)
    (hc : c.Type_ = NodeType.ElementNode) (hr : c.Data = "hr")
    (h : parseSiblings rest = .ok items) :
    parseSiblings (c :: rest) = .ok (separatorItem :: items) := by
  rw [parseSiblings]
  simp [hc, hr, h]

theorem parseSiblings_h3_paired (c : Node) (rest : List Node) (d : Node) (after : List Node)
    (children items : List BookmarkItem)
    (hc : c.Type_ = NodeType.ElementNode) (hh : c.Data = "h3")
    (hf : findFolderDL rest = some (d, after))
    (hch : parseSiblings d.children = .ok children)
    (h : parseSiblings after = .ok items) :
    parseSiblings (c :: rest) = .ok (folderItem c children :: items) := by
  have ha : c.Data ≠ "a" := by rw [hh]; decide
  have hr : c.Data ≠ "hr" := by rw [hh]; decide
  rw [parseSiblings]
  simp only [hc, ha, hr, ne_eq, not_true_eq_false, if_false]
  simp only [hh, if_true]
  split
  · next d2 a2 heq =>
    rw [hf] at heq
    simp only [Option.some.injEq, Prod.mk.injEq] at heq
    obtain ⟨rfl, rfl⟩ := heq
    simp [hch, h]
  · next heq => rw [hf] at heq; cases heq

theorem parseSiblings_h3_alone (c : Node) (rest : List Node) (items : List BookmarkItem)
    (hc : c.Type_ = NodeType.ElementNode) (hh : c.Data = "h3")
    (hf : findFolderDL rest = none)
    (h : parseSiblings rest = .ok items) :
    parseSiblings (c :: rest) = .ok (folderItem c [] :: items) := by
  have ha : c.Data ≠ "a" := by rw [hh]; decide
  have hr : c.Data ≠ "hr" := by rw [hh]; decide
  rw [parseSiblings]
  simp only [hc, ha, hr, ne_eq, not_true_eq_false, if_false]
  simp only [hh, if_true]
  split
  · next d2 a2 heq => rw [hf] at heq; cases heq
  · simp [h]

/-- The four ways a child is dispatched. -/
theorem markerType_cases (c : Node) :
    markerType c = none ∨
    (c.Type_ = NodeType.ElementNode ∧ c.Data = "a" ∧ markerType c = some "bookmark") ∨
    (c.Type_ = NodeType.ElementNode ∧ c.Data = "hr" ∧ markerType c = some "separator") ∨
    (c.Type_ = NodeType.ElementNode ∧ c.Data = "h3" ∧ markerType c = some "folder") := by
  by_cases hc : c.Type_ = NodeType.ElementNode
  · by_cases ha : c.Data = "a"
    · right; left; simp [markerType, hc, ha]
    · by_cases hr : c.Data = "hr"
      · right; right; left; simp [markerType, hc, hr]
      · by_cases hh : c.Data = "h3"
        · right; right; right; simp [markerType, hc, hh]
        · left; simp [markerType, hc, ha, hr, hh]
  · left; simp [markerType, hc]

/-! ## The tree extractor never fails -/

theorem parseSiblings_ok (l : List Node) : ∃ items, parseSiblings l = .ok items := by
  induction l using siblings_induction with
  | hnil => exact ⟨[], parseSiblings_nil⟩
  | hcons c rest ih ihf =>
    obtain ⟨items, h⟩ := ih
    rcases markerType_cases c with hm | ⟨hc, ha, -⟩ | ⟨hc, hr, -⟩ | ⟨hc, hh, -⟩
    · exact ⟨items, by rw [parseSiblings_skip c rest hm, h]⟩
    · exact ⟨_, parseSiblings_a c rest items hc ha h⟩
    · exact ⟨_, parseSiblings_hr c rest items hc hr h⟩
    · cases hf : findFolderDL rest with
      | none => exact ⟨_, parseSiblings_h3_alone c rest items hc hh hf h⟩
      | some p =>
        obtain ⟨d, after⟩ := p
        obtain ⟨⟨ch, hch⟩, ⟨its, hits⟩⟩ := ihf d after hf
        exact ⟨_, parseSiblings_h3_paired c rest d after ch its hc hh hf hch hits⟩

theorem parseDLNode_ok (dlNode : Node) : ∃ items, parseDLNode dlNode = .ok items :=
  parseSiblings_ok dlNode.children

/-! ## Markers and positions -/

theorem markerType_of_not_element {n : Node} (h : n.Type_ ≠ NodeType.ElementNode) :
    markerType n = none := by
  simp [markerType, h]

theorem markerType_of_dl {n : Node} (h : n.Data = "dl") : markerType n = none := by
  simp [markerType, h]

theorem filterMap_markerType_skipped (skipped : List Node)
    (hsk : ∀ n ∈ skipped, n.Type_ ≠ NodeType.ElementNode) :
    skipped.filterMap markerType = [] := by
  induction skipped with
  | nil => rfl
  | cons n ns ih =>
    rw [List.filterMap_cons, markerType_of_not_element (hsk n (List.mem_cons_self _ _))]
    exact ih (fun m hm => hsk m (List.mem_cons_of_mem _ hm))

/-- A paired list and the nodes skipped before it hold no marker. -/
theorem filterMap_markerType_paired {rest : List Node} {d : Node} {after : List Node}
    (hf : findFolderDL rest = some (d, after)) :
    rest.filterMap markerType = after.filterMap markerType := by
  obtain ⟨skipped, rfl, hsk, -, hd⟩ := findFolderDL_eq_some hf
  rw [List.filterMap_append, filterMap_markerType_skipped skipped hsk, List.filterMap_cons,
    markerType_of_dl hd, List.nil_append]

theorem countMarkers_cons_none {c : Node} (l : List Node) (h : markerType c = none) :
    countMarkers (c :: l) = countMarkers l := by
  simp [countMarkers, List.filterMap_cons, h]

theorem countMarkers_cons_some {c : Node} {t : String} (l : List Node)
    (h : markerType c = some t) : countMarkers (c :: l) = countMarkers l + 1 := by
  simp [countMarkers, List.filterMap_cons, h]

/-- When the lookahead, started inside `pre`, pairs a list although an element
`c` that is not a list follows `pre`, the list lies inside `pre`. -/
theorem findFolderDL_before_element {pre : List Node} {c : Node} {rest : List Node}
    {d : Node} {after : List Node}
    (hc : c.Type_ = NodeType.ElementNode) (hcd : c.Data ≠ "dl")
    (hf : findFolderDL (pre ++ c :: rest) = some (d, after)) :
    ∃ pre2, after = pre2 ++ c :: rest ∧ pre2.length < pre.length ∧
      countMarkers pre2 = countMarkers pre := by
  induction pre with
  | nil =>
    rw [List.nil_append, findFolderDL_element c rest hc] at hf
    simp [hcd] at hf
  | cons q qs ih =>
    rw [List.cons_append] at hf
    by_cases hq : q.Type_ = NodeType.ElementNode
    · rw [findFolderDL_element q _ hq] at hf
      by_cases hqd : q.Data = "dl"
      · simp only [hqd, if_true, Option.some.injEq, Prod.mk.injEq] at hf
        obtain ⟨-, rfl⟩ := hf
        exact ⟨qs, rfl, by simp, (countMarkers_cons_none qs (markerType_of_dl hqd)).symm⟩
      · simp [hqd] at hf
    · have hskip : findFolderDL (q :: (qs ++ c :: rest)) = findFolderDL (qs ++ c :: rest) := by
        simp [findFolderDL, hq]
      rw [hskip] at hf
      obtain ⟨pre2, h1, h2, h3⟩ := ih hf
      refine ⟨pre2, h1, ?_, ?_⟩
      · simp only [List.length_cons]; omega
      · rw [h3, countMarkers_cons_none qs (markerType_of_not_element hq)]

/-- The items emitted for the siblings before an element `c` that is not a
list are followed by exactly what the loop emits from `c` on; their number is
the number of markers before `c`. -/
theorem parseSiblings_split (pre : List Node) (c : Node) (rest : List Node)
    (hc : c.Type_ = NodeType.ElementNode) (hcd : c.Data ≠ "dl") :
    ∃ before tail, before.length = countMarkers pre ∧
      parseSiblings (c :: rest) = .ok tail ∧
      parseSiblings (pre ++ c :: rest) = .ok (before ++ tail) := by
  generalize hn : pre.length = n
  induction n using Nat.strong_induction_on generalizing pre with
  | _ n ih =>
    cases pre with
    | nil =>
      obtain ⟨tail, ht⟩ := parseSiblings_ok (c :: rest)
      exact ⟨[], tail, rfl, ht, by simpa using ht⟩
    | cons p ps =>
      subst hn
      obtain ⟨before, tail, hlen, htail, hps⟩ := ih ps.length (by simp) ps rfl
      rw [List.cons_append]
      rcases markerType_cases p with hm | ⟨hp, ha, hm⟩ | ⟨hp, hr, hm⟩ | ⟨hp, hh, hm⟩
      · refine ⟨before, tail, ?_, htail, ?_⟩
        · rw [countMarkers_cons_none ps hm, hlen]
        · rw [parseSiblings_skip p _ hm, hps]
      · refine ⟨bookmarkItem p :: before, tail, ?_, htail, ?_⟩
        · rw [countMarkers_cons_some ps hm, List.length_cons, hlen]
        · exact parseSiblings_a p _ _ hp ha hps
      · refine ⟨separatorItem :: before, tail, ?_, htail, ?_⟩
        · rw [countMarkers_cons_some ps hm, List.length_cons, hlen]
        · exact parseSiblings_hr p _ _ hp hr hps
      · cases hf : findFolderDL (ps ++ c :: rest) with
        | none =>
          refine ⟨folderItem p [] :: before, tail, ?_, htail, ?_⟩
          · rw [countMarkers_cons_some ps hm, List.length_cons, hlen]
          · exact parseSiblings_h3_alone p _ _ hp hh hf hps
        | some found =>
          obtain ⟨d, after⟩ := found
          obtain ⟨pre2, hafter, hlt, hcount⟩ := findFolderDL_before_element hc hcd hf
          obtain ⟨before2, tail2, hlen2, htail2, hps2⟩ :=
            ih pre2.length (by simp only [List.length_cons]; omega) pre2 rfl
          obtain ⟨children, hch⟩ := parseSiblings_ok d.children
          refine ⟨folderItem p children :: before2, tail2, ?_, htail2, ?_⟩
          · rw [countMarkers_cons_some ps hm, List.length_cons, hlen2, hcount]
          · rw [← hafter] at hps2
            exact parseSiblings_h3_paired p _ d after children _ hp hh hf hch hps2

/-! ## C1: folder pairing -/

/-- C1 (folder-pairing law, paired case). Let `h` be a heading (`h3`) element
child of the list element `L`, `pre` the children before it and `rest` the
children after it. When the first element among `rest` (nodes that are not
elements skipped) is a `dl` element `D`, then `parseDLNode D` returns a sequence
`kids`, and `parseDLNode L` returns a sequence in which the item emitted for `h`
(the item at the position given by the number of markers before `h`) is a
folder whose `Children` is `kids`. -/
theorem folder_pairing_paired (L : Node) (pre : List Node) (h : Node) (rest : List Node)
    (D : Node) (hL : L.children = pre ++ h :: rest)
    (hElem : h.Type_ = NodeType.ElementNode) (hTag : h.Data = "h3")
    (hNext : rest.find? isElementNode = some D) (hList : D.Data = "dl") :
    ∃ kids before item after,
      parseDLNode D = .ok kids ∧
      parseDLNode L = .ok (before ++ item :: after) ∧
      before.length = countMarkers pre ∧
      item.Type_ = "folder" ∧ item.Children = kids := by
  obtain ⟨afterD, hf⟩ := findFolderDL_of_find hNext hList
  obtain ⟨kids, hkids⟩ := parseSiblings_ok D.children
  obtain ⟨items, hitems⟩ := parseSiblings_ok afterD
  have hhd : h.Data ≠ "dl" := by rw [hTag]; decide
  obtain ⟨before, tail, hlen, htail, hall⟩ := parseSiblings_split pre h rest hElem hhd
  rw [parseSiblings_h3_paired h rest D afterD kids items hElem hTag hf hkids hitems] at htail
  cases htail
  refine ⟨kids, before, folderItem h kids, items, hkids, ?_, hlen, rfl, rfl⟩
  rw [parseDLNode, hL, hall]

/-- C1 at the test "Simple folder": the heading "My Folder", followed by a text
node and then by its list. -/
theorem folder_pairing_paired_witness :
    ∃ kids before item after,
      parseDLNode childList = .ok kids ∧
      parseDLNode simpleFolderList = .ok (before ++ item :: after) ∧
      before.length = countMarkers [textNode "\n"] ∧
      item.Type_ = "folder" ∧ item.Children = kids :=
  folder_pairing_paired simpleFolderList [textNode "\n"] myFolderHeading
    [textNode "\n", childList, textNode "\n"] childList rfl rfl rfl rfl rfl

/-! ## C2: sibling order -/

theorem parseSiblings_types (l : List Node) :
    ∃ items, parseSiblings l = .ok items ∧
      items.map BookmarkItem.Type_ = l.filterMap markerType := by
  induction l using siblings_induction with
  | hnil => exact ⟨[], parseSiblings_nil, rfl⟩
  | hcons c rest ih ihf =>
    obtain ⟨items, h, hty⟩ := ih
    rcases markerType_cases c with hm | ⟨hc, ha, hm⟩ | ⟨hc, hr, hm⟩ | ⟨hc, hh, hm⟩
    · exact ⟨items, by rw [parseSiblings_skip c rest hm, h], by
        rw [List.filterMap_cons, hm]; exact hty⟩
    · refine ⟨_, parseSiblings_a c rest items hc ha h, ?_⟩
      rw [List.filterMap_cons, hm, List.map_cons, hty]; rfl
    · refine ⟨_, parseSiblings_hr c rest items hc hr h, ?_⟩
      rw [List.filterMap_cons, hm, List.map_cons, hty]; rfl
    · cases hf : findFolderDL rest with
      | none =>
        refine ⟨_, parseSiblings_h3_alone c rest items hc hh hf h, ?_⟩
        rw [List.filterMap_cons, hm, List.map_cons, hty]; rfl
      | some found =>
        obtain ⟨d, after⟩ := found
        obtain ⟨⟨ch, hch⟩, ⟨its, hits, htys⟩⟩ :=
          And.intro (parseSiblings_ok d.children) (ihf d after hf).2
        refine ⟨_, parseSiblings_h3_paired c rest d after ch its hc hh hf hch hits, ?_⟩
        rw [List.filterMap_cons, hm, List.map_cons, htys, filterMap_markerType_paired hf]
        rfl

/-- C2 (sibling order is preserved, one item per marker). For every list element
`L`, `parseDLNode L` returns a sequence whose `Type` fields are, in order, the
types of the children of `L` that are `a`, `hr` or `h3` elements (`a` gives
"bookmark", `hr` gives "separator", `h3` gives "folder"); no other child, a
paired `dl` included, gives an item and no marker is skipped. -/
theorem sibling_order_preserved (L : Node) :
    ∃ items, parseDLNode L = .ok items ∧
      items.map BookmarkItem.Type_ = L.children.filterMap markerType :=
  parseSiblings_types L.children

/-! ## C3: attributes -/

theorem getAttributeLoop_eq (key : String) (attrs : List Attribute) :
    getAttributeLoop key attrs =
      ((attrs.find? (fun attr => attr.Key = key)).map (fun attr => attr.Val)).getD "" := by
  induction attrs with
  | nil => rfl
  | cons a as ih =>
    by_cases h : a.Key = key
    · simp [getAttributeLoop, List.find?, h]
    · simp [getAttributeLoop, List.find?, h, ih]

theorem getAttribute_eq (n : Node) (key : String) :
    getAttribute n key = (firstAttr n key).getD "" :=
  getAttributeLoop_eq key n.Attr

/-- C3 (attribute round-trip). Let `c` be an element child of the list `L`. If
`c` is a link (`a`), the item emitted for it is a bookmark whose `Href`, `Tags`,
`ID`, `AddDate`, `LastModified`, `Icon` and `IconURI` are the values of the
first attribute of `c` with key `href`, `tags`, `id`, `add_date`,
`last_modified`, `icon` and `icon_uri`, and the empty string where `c` has no
such attribute. If `c` is a heading (`h3`), the item emitted for it is a folder
for which the same holds of `ID`, `AddDate` and `LastModified`. -/
theorem attribute_round_trip (L : Node) (pre : List Node) (c : Node) (rest : List Node)
    (hL : L.children = pre ++ c :: rest) (hElem : c.Type_ = NodeType.ElementNode) :
    (c.Data = "a" →
      ∃ before item after,
        parseDLNode L = .ok (before ++ item :: after) ∧
        before.length = countMarkers pre ∧ item.Type_ = "bookmark" ∧
        item.Href = (firstAttr c "href").getD "" ∧
        item.Tags = (firstAttr c "tags").getD "" ∧
        item.ID = (firstAttr c "id").getD "" ∧
        item.AddDate = (firstAttr c "add_date").getD "" ∧
        item.LastModified = (firstAttr c "last_modified").getD "" ∧
        item.Icon = (firstAttr c "icon").getD "" ∧
        item.IconURI = (firstAttr c "icon_uri").getD "") ∧
    (c.Data = "h3" →
      ∃ before item after,
        parseDLNode L = .ok (before ++ item :: after) ∧
        before.length = countMarkers pre ∧ item.Type_ = "folder" ∧
        item.ID = (firstAttr c "id").getD "" ∧
        item.AddDate = (firstAttr c "add_date").getD "" ∧
        item.LastModified = (firstAttr c "last_modified").getD "") := by
  constructor
  · intro ha
    have hcd : c.Data ≠ "dl" := by rw [ha]; decide
    obtain ⟨before, tail, hlen, htail, hall⟩ := parseSiblings_split pre c rest hElem hcd
    obtain ⟨items, hitems⟩ := parseSiblings_ok rest
    rw [parseSiblings_a c rest items hElem ha hitems] at htail
    cases htail
    refine ⟨before, bookmarkItem c, items, by rw [parseDLNode, hL, hall], hlen, rfl,
      getAttribute_eq c _, getAttribute_eq c _, getAttribute_eq c _, getAttribute_eq c _,
      getAttribute_eq c _, getAttribute_eq c _, getAttribute_eq c _⟩
  · intro hh
    have hcd : c.Data ≠ "dl" := by rw [hh]; decide
    obtain ⟨before, tail, hlen, htail, hall⟩ := parseSiblings_split pre c rest hElem hcd
    obtain ⟨items, hitems⟩ := parseSiblings_ok rest
    cases hf : findFolderDL rest with
    | none =>
      rw [parseSiblings_h3_alone c rest items hElem hh hf hitems] at htail
      cases htail
      exact ⟨before, folderItem c [], items, by rw [parseDLNode, hL, hall], hlen, rfl,
        getAttribute_eq c _, getAttribute_eq c _, getAttribute_eq c _⟩
    | some found =>
      obtain ⟨d, after⟩ := found
      obtain ⟨ch, hch⟩ := parseSiblings_ok d.children
      obtain ⟨its, hits⟩ := parseSiblings_ok after
      rw [parseSiblings_h3_paired c rest d after ch its hElem hh hf hch hits] at htail
      cases htail
      exact ⟨before, folderItem c ch, its, by rw [parseDLNode, hL, hall], hlen, rfl,
        getAttribute_eq c _, getAttribute_eq c _, getAttribute_eq c _⟩

/-- C3 at the link of the test "Simple bookmark" (all seven attributes present)
and at the heading of the test "Simple folder" (`id`, `add_date`,
`last_modified` present). -/
theorem attribute_round_trip_witness :
    (∃ before item after,
        parseDLNode simpleBookmarkList = .ok (before ++ item :: after) ∧
        before.length = countMarkers [textNode "\n"] ∧ item.Type_ = "bookmark" ∧
        item.Href = (firstAttr exampleLink "href").getD "" ∧
        item.Tags = (firstAttr exampleLink "tags").getD "" ∧
        item.ID = (firstAttr exampleLink "id").getD "" ∧
        item.AddDate = (firstAttr exampleLink "add_date").getD "" ∧
        item.LastModified = (firstAttr exampleLink "last_modified").getD "" ∧
        item.Icon = (firstAttr exampleLink "icon").getD "" ∧
        item.IconURI = (firstAttr exampleLink "icon_uri").getD "") ∧
    (∃ before item after,
        parseDLNode simpleFolderList = .ok (before ++ item :: after) ∧
        before.length = countMarkers [textNode "\n"] ∧ item.Type_ = "folder" ∧
        item.ID = (firstAttr myFolderHeading "id").getD "" ∧
        item.AddDate = (firstAttr myFolderHeading "add_date").getD "" ∧
        item.LastModified = (firstAttr myFolderHeading "last_modified").getD "") :=
  ⟨(attribute_round_trip simpleBookmarkList [textNode "\n"] exampleLink [textNode "\n"]
      rfl rfl).1 rfl,
   (attribute_round_trip simpleFolderList [textNode "\n"] myFolderHeading
      [textNode "\n", childList, textNode "\n"] rfl rfl).2 rfl⟩

/-! ## C4: the name of an item -/

/-- C4 at `<A HREF="https://example.com"><B>Hello </B>World</A>`: the emitted
bookmark is named "HelloWorld", because the text of the nested element is
trimmed before it is concatenated, while trimming the concatenated text of all
descendant text nodes once gives "Hello World". -/
theorem name_of_nested_text :
    ∃ item, parseDLNode boldLinkList = .ok [item] ∧
      item.Name = getNodeText boldLink ∧
      item.Name = "HelloWorld" ∧
      TrimSpace (descendantText boldLink) = "Hello World" ∧
      item.Name ≠ TrimSpace (descendantText boldLink) := by
  refine ⟨bookmarkItem boldLink, ?_, rfl, by decide, by decide, by decide⟩
  exact parseSiblings_a boldLink [] [] rfl rfl parseSiblings_nil

/-! ## C5, C6: the locator -/

theorem firstDLChild_eq (cs : List Node) : firstDLChild cs = cs.find? (isTag "dl") := by
  induction cs with
  | nil => rfl
  | cons c cs ih =>
    by_cases h : c.Type_ = NodeType.ElementNode ∧ c.Data = "dl"
    · have hp : isTag "dl" c = true := by simpa [isTag] using h
      simp [firstDLChild, h, List.find?, hp]
    · have hp : isTag "dl" c = false := by simpa [isTag] using h
      simp only [firstDLChild, h, if_false, List.find?, hp]
      exact ih

mutual
/-- The locator returns the first hit of `bodyDL` along the pre-order of the tree. -/
theorem findBodyDL_eq_findSome : ∀ n : Node, findBodyDL n = (preorder n).findSome? bodyDL
  | .mk t d a cs => by
    have ih := findBodyDLChildren_eq_findSome cs
    by_cases h : t = NodeType.ElementNode ∧ d = "body"
    · have hb : isTag "body" (Node.mk t d a cs) = true := by
        simpa [isTag, Node.Type_, Node.Data] using h
      simp only [findBodyDL, h, and_self, if_true, preorder, List.findSome?, bodyDL, hb,
        Node.children, firstDLChild_eq]
      cases List.find? (isTag "dl") cs with
      | none => exact ih
      | some c => rfl
    · have hb : isTag "body" (Node.mk t d a cs) = false := by
        simpa [isTag, Node.Type_, Node.Data] using h
      simp only [findBodyDL, h, if_false, preorder, List.findSome?, bodyDL, hb]
      exact ih
theorem findBodyDLChildren_eq_findSome :
    ∀ cs : List Node, findBodyDLChildren cs = (preorderList cs).findSome? bodyDL
  | [] => rfl
  | c :: cs => by
    have ih1 := findBodyDL_eq_findSome c
    have ih2 := findBodyDLChildren_eq_findSome cs
    simp only [findBodyDLChildren, preorderList, List.findSome?_append, ih1, ih2]
    cases List.findSome? bodyDL (preorder c) <;> rfl
end

theorem mem_preorder_self : ∀ n : Node, n ∈ preorder n
  | .mk t d a cs => by simp [preorder]

theorem mem_preorderList_of_mem {c : Node} :
    ∀ {cs : List Node}, c ∈ cs → c ∈ preorderList cs
  | [], h => by cases h
  | x :: xs, h => by
    simp only [preorderList, List.mem_append]
    rcases List.mem_cons.mp h with rfl | h
    · exact Or.inl (mem_preorder_self _)
    · exact Or.inr (mem_preorderList_of_mem h)

theorem findSome_isSome_eq_any {α β : Type} (f : α → Option β) (l : List α) :
    (l.findSome? f).isSome = l.any (fun x => (f x).isSome) := by
  induction l with
  | nil => rfl
  | cons x xs ih =>
    cases hx : f x with
    | none => simp [List.findSome?, hx, ih]
    | some y => simp [List.findSome?, hx]

theorem find_isSome_eq_any {α : Type} (p : α → Bool) (l : List α) :
    (l.find? p).isSome = l.any p := by
  induction l with
  | nil => rfl
  | cons x xs ih =>
    cases hx : p x with
    | false => simp [List.find?, hx, ih]
    | true => simp [List.find?, hx]

theorem bodyDL_isSome (n : Node) :
    (bodyDL n).isSome = (isTag "body" n && n.children.any (isTag "dl")) := by
  cases hb : isTag "body" n with
  | false => simp [bodyDL, hb]
  | true => simp only [bodyDL, hb, if_true, Bool.true_and]; exact find_isSome_eq_any _ _

/-- The locator succeeds exactly when some body element has a direct `dl` child. -/
theorem findBodyDL_isSome (doc : Node) : (findBodyDL doc).isSome = hasBodyDL doc := by
  rw [findBodyDL_eq_findSome, findSome_isSome_eq_any, hasBodyDL]
  congr 1
  funext n
  exact bodyDL_isSome n

/-- What the locator returns is a `dl` element, a direct child of a body
element of the tree. -/
theorem findBodyDL_some {doc d : Node} (h : findBodyDL doc = some d) :
    isTag "dl" d = true ∧
      ∃ b, b ∈ preorder doc ∧ isTag "body" b = true ∧ d ∈ b.children := by
  rw [findBodyDL_eq_findSome] at h
  obtain ⟨b, hb, hbd⟩ := List.exists_of_findSome?_eq_some h
  by_cases hbody : isTag "body" b = true
  · simp only [bodyDL, hbody, if_true] at hbd
    exact ⟨List.find?_some hbd, b, hb, hbody, List.mem_of_find?_eq_some hbd⟩
  · simp [bodyDL, hbody] at hbd

theorem findSome_of_find {l : List Node} {B D : Node}
    (hB : l.find? (isTag "body") = some B) (hD : bodyDL B = some D) :
    l.findSome? bodyDL = some D := by
  induction l with
  | nil => simp at hB
  | cons x xs ih =>
    cases hx : isTag "body" x with
    | true =>
      simp only [List.find?, hx, Option.some.injEq] at hB
      subst hB
      simp [List.findSome?, hD]
    | false =>
      simp only [List.find?, hx] at hB
      have : bodyDL x = none := by simp [bodyDL, hx]
      simp only [List.findSome?, this]
      exact ih hB

mutual
theorem mem_preorder_of_child {b d : Node} (hd : d ∈ b.children) :
    ∀ n : Node, b ∈ preorder n → d ∈ preorder n
  | .mk t dd a cs, hb => by
    simp only [preorder, List.mem_cons] at hb ⊢
    rcases hb with rfl | hb
    · exact Or.inr (mem_preorderList_of_mem hd)
    · exact Or.inr (mem_preorderList_of_child hd cs hb)
theorem mem_preorderList_of_child {b d : Node} (hd : d ∈ b.children) :
    ∀ cs : List Node, b ∈ preorderList cs → d ∈ preorderList cs
  | [], hb => by simp [preorderList] at hb
  | c :: cs, hb => by
    simp only [preorderList, List.mem_append] at hb ⊢
    exact hb.imp (mem_preorder_of_child hd c) (mem_preorderList_of_child hd cs)
end

/-- A tree without any `dl` element has no body with a direct `dl` child. -/
theorem hasBodyDL_false_of_containsDL_false {doc : Node} (h : containsDL doc = false) :
    hasBodyDL doc = false := by
  cases hb : hasBodyDL doc with
  | false => rfl
  | true =>
    rw [← findBodyDL_isSome, Option.isSome_iff_exists] at hb
    obtain ⟨d, hd⟩ := hb
    obtain ⟨hdl, b, hbmem, -, hdb⟩ := findBodyDL_some hd
    have hmem : d ∈ preorder doc := mem_preorder_of_child hdb doc hbmem
    have : containsDL doc = true := List.any_eq_true.mpr ⟨d, hmem, hdl⟩
    rw [h] at this
    cases this

/-! ### C5 -/

/-- C5 fails on `<DIV><DL>...</DL></DIV>`: the document contains a `dl` element,
under a `div`, and the locator returns "not found". -/
theorem locator_misses_nested_list :
    containsDL divDocument = true ∧ findBodyDL divDocument = none :=
  ⟨by decide, rfl⟩

/-- C5, amended. For every document tree in which some body element has a
direct child that is a `dl` element, `findBodyDL` returns a `dl` element; in
every other tree it returns "not found": there is no search for a `dl` outside
the direct children of a body. In particular it returns "not found" when the
tree contains no `dl` element at all. -/
theorem locator_without_fallback (doc : Node) :
    (hasBodyDL doc = true → ∃ d, findBodyDL doc = some d ∧ isTag "dl" d = true) ∧
    (hasBodyDL doc = false → findBodyDL doc = none) ∧
    (containsDL doc = false → findBodyDL doc = none) := by
  have hsome := findBodyDL_isSome doc
  have hnone : hasBodyDL doc = false → findBodyDL doc = none := by
    intro h
    rw [h] at hsome
    cases hf : findBodyDL doc with
    | none => rfl
    | some d => rw [hf] at hsome; cases hsome
  refine ⟨?_, hnone, fun h => hnone (hasBodyDL_false_of_containsDL_false h)⟩
  intro h
  rw [h, Option.isSome_iff_exists] at hsome
  obtain ⟨d, hd⟩ := hsome
  exact ⟨d, hd, (findBodyDL_some hd).1⟩

/-- C5, amended, at three documents: the test "Simple folder" (the body has a
direct `dl` child), `<DIV><DL>...</DL></DIV>` (a `dl`, but not under the body)
and the test "No root DL in body" (no `dl` at all). -/
theorem locator_without_fallback_witness :
    (∃ d, findBodyDL simpleFolderDocument = some d ∧ isTag "dl" d = true) ∧
    findBodyDL divDocument = none ∧
    findBodyDL noListDocument = none :=
  ⟨(locator_without_fallback simpleFolderDocument).1 (by decide),
   (locator_without_fallback divDocument).2.1 (by decide),
   (locator_without_fallback noListDocument).2.2 (by decide)⟩

/-! ### C6 -/

/-- C6 (primary rule of the locator). When the first body element of the tree in
pre-order, `B`, has a direct child that is a `dl` element, `findBodyDL` returns
the first such child `D` of `B` in document order. -/
theorem locator_primary_rule (doc B D : Node)
    (hB : (preorder doc).find? (isTag "body") = some B)
    (hD : B.children.find? (isTag "dl") = some D) :
    findBodyDL doc = some D := by
  rw [findBodyDL_eq_findSome]
  apply findSome_of_find hB
  have hbody : isTag "body" B = true := List.find?_some hB
  simp [bodyDL, hbody, hD]

/-- C6 at the document of the test "Simple folder": the root list is the third
child of the body. -/
theorem locator_primary_rule_witness :
    (preorder simpleFolderDocument).find? (isTag "body") = some simpleFolderBody ∧
    simpleFolderBody.children.find? (isTag "dl") = some simpleFolderList ∧
    findBodyDL simpleFolderDocument = some simpleFolderList :=
  ⟨rfl, rfl, locator_primary_rule simpleFolderDocument simpleFolderBody simpleFolderList rfl rfl⟩

/-! ## C7: the orchestrator -/

/-- C7. When the input is read and the document builder succeeds with the tree
`doc`: if the locator finds no root list in `doc`, `ParseNetscapeBookmarks`
succeeds with the empty sequence; if it finds `rootDL`, the result is exactly
the result of `parseDLNode rootDL`. -/
theorem orchestrator_result (fileContent : String) (htmlParse : String → Except String Node)
    (doc : Node) (hParse : htmlParse (removeUnwantedElements fileContent) = .ok doc) :
    (findBodyDL doc = none →
      ParseNetscapeBookmarks (.ok fileContent) htmlParse = .ok []) ∧
    (∀ rootDL, findBodyDL doc = some rootDL →
      ParseNetscapeBookmarks (.ok fileContent) htmlParse = parseDLNode rootDL) := by
  constructor
  · intro h
    simp only [ParseNetscapeBookmarks, hParse, h]
  · intro rootDL h
    obtain ⟨items, hitems⟩ := parseDLNode_ok rootDL
    simp only [ParseNetscapeBookmarks, hParse, h, hitems]

/-- C7 at the documents of the tests "No root DL in body" and "Simple folder". -/
theorem orchestrator_result_witness :
    ParseNetscapeBookmarks (.ok "") (parseTo noListDocument) = .ok [] ∧
    ParseNetscapeBookmarks (.ok "") (parseTo simpleFolderDocument) =
      parseDLNode simpleFolderList :=
  ⟨(orchestrator_result "" (parseTo noListDocument) noListDocument rfl).1 rfl,
   (orchestrator_result "" (parseTo simpleFolderDocument) simpleFolderDocument rfl).2
      simpleFolderList rfl⟩

/-! ## C8: the JSON object of a separator -/

/-- C8 fails on `<HR SIZE="2" ID="sep1">`: the object written for the emitted
separator has two keys, "type" and "name", the second holding the empty string;
it is not the object with the single key "type". -/
theorem separator_json_has_name :
    ∃ before item after,
      parseDLNode separatorList = .ok (before ++ item :: after) ∧
      before.length = 1 ∧
      marshalItem item =
        JsonValue.obj [("type", JsonValue.str "separator"), ("name", JsonValue.str "")] ∧
      marshalItem item ≠ JsonValue.obj [("type", JsonValue.str "separator")] := by
  refine ⟨[bookmarkItem site1Link], separatorItem, [bookmarkItem site2Link], ?_, rfl, rfl, ?_⟩
  · exact parseSiblings_a _ _ _ rfl rfl
      (parseSiblings_hr _ _ _ rfl rfl (parseSiblings_a _ _ _ rfl rfl parseSiblings_nil))
  · intro h
    have h2 := congrArg (fun j => match j with
      | JsonValue.obj fields => fields.length
      | _ => 0) h
    revert h2
    decide

/-- C8, amended. For every separator-marker (`hr`) element child of a list,
whatever its attributes and content, the JSON object written for the emitted
item is exactly the object with the key "type" holding "separator" and then the key
"name" holding the empty string (the `name` field is not tagged `omitempty`),
and no other key: no "href", "tags", "id", "add_date", "last_modified", "icon",
"icon_uri" or "children". -/
theorem separator_json (L : Node) (pre : List Node) (c : Node) (rest : List Node)
    (hL : L.children = pre ++ c :: rest)
    (hElem : c.Type_ = NodeType.ElementNode) (hTag : c.Data = "hr") :
    ∃ before item after,
      parseDLNode L = .ok (before ++ item :: after) ∧
      before.length = countMarkers pre ∧
      marshalItem item =
        JsonValue.obj [("type", JsonValue.str "separator"), ("name", JsonValue.str "")] := by
  have hcd : c.Data ≠ "dl" := by rw [hTag]; decide
  obtain ⟨before, tail, hlen, htail, hall⟩ := parseSiblings_split pre c rest hElem hcd
  obtain ⟨items, hitems⟩ := parseSiblings_ok rest
  rw [parseSiblings_hr c rest items hElem hTag hitems] at htail
  cases htail
  exact ⟨before, separatorItem, items, by rw [parseDLNode, hL, hall], hlen, rfl⟩

/-- C8, amended, at the separator of `separatorList`, which carries two attributes. -/
theorem separator_json_witness :
    ∃ before item after,
      parseDLNode separatorList = .ok (before ++ item :: after) ∧
      before.length = countMarkers [site1Link] ∧
      marshalItem item =
        JsonValue.obj [("type", JsonValue.str "separator"), ("name", JsonValue.str "")] :=
  separator_json separatorList [site1Link] ruleWithAttributes [site2Link] rfl rfl rfl

/-! ## C9: the data-model invariant -/

theorem parseSiblings_wellShaped (l : List Node) :
    ∃ items, parseSiblings l = .ok items ∧ wellShapedList items := by
  induction l using siblings_induction with
  | hnil => exact ⟨[], parseSiblings_nil, trivial⟩
  | hcons c rest ih ihf =>
    obtain ⟨items, h, hws⟩ := ih
    rcases markerType_cases c with hm | ⟨hc, ha, -⟩ | ⟨hc, hr, -⟩ | ⟨hc, hh, -⟩
    · exact ⟨items, by rw [parseSiblings_skip c rest hm, h], hws⟩
    · refine ⟨_, parseSiblings_a c rest items hc ha h, ?_, hws⟩
      simp [bookmarkItem, wellShaped, wellShapedList]
    · refine ⟨_, parseSiblings_hr c rest items hc hr h, ?_, hws⟩
      simp [separatorItem, wellShaped, wellShapedList]
    · cases hf : findFolderDL rest with
      | none =>
        refine ⟨_, parseSiblings_h3_alone c rest items hc hh hf h, ?_, hws⟩
        simp [folderItem, wellShaped, wellShapedList]
      | some found =>
        obtain ⟨d, after⟩ := found
        obtain ⟨⟨ch, hch, hchws⟩, ⟨its, hits, hitsws⟩⟩ := ihf d after hf
        refine ⟨_, parseSiblings_h3_paired c rest d after ch its hc hh hf hch hits, ?_, hitsws⟩
        simp [folderItem, wellShaped, hchws]

/-- C9 (data-model invariant). For every list element `L`, `parseDLNode L`
returns a sequence, and every item of it, at every nesting depth, satisfies:
`Type` is "bookmark", "folder" or "separator"; a bookmark has no `Children`; a
folder has empty `Href`, `Tags`, `Icon` and `IconURI`; a separator has every
field other than `Type` empty. -/
theorem data_model_invariant (L : Node) :
    ∃ items, parseDLNode L = .ok items ∧ wellShapedList items :=
  parseSiblings_wellShaped L.children

/-! ## C10: applying the preprocessor twice -/

theorem replaceAllChars_nil (old new : List Char) : replaceAllChars old new [] = [] := by
  rw [replaceAllChars]

theorem replaceAllChars_cons (old new : List Char) (c : Char) (cs : List Char) :
    replaceAllChars old new (c :: cs) =
      if old.isPrefixOf (c :: cs) then
        new ++ replaceAllChars old new (cs.drop (old.length - 1))
      else c :: replaceAllChars old new cs := by
  rw [replaceAllChars]

/-- A text without an occurrence of `old` is left as it is. -/
theorem replaceAllChars_of_not_infix (old new : List Char) :
    ∀ l : List Char, ¬ old <:+: l → replaceAllChars old new l = l := by
  intro l
  induction l with
  | nil => intro _; exact replaceAllChars_nil old new
  | cons c cs ih =>
    intro h
    rw [List.infix_cons_iff, not_or] at h
    have hp : old.isPrefixOf (c :: cs) = false := by
      rw [Bool.eq_false_iff]
      intro hp
      exact h.1 (List.isPrefixOf_iff_prefix.mp hp)
    rw [replaceAllChars_cons, hp]
    simp only [Bool.false_eq_true, if_false]
    rw [ih h.2]

/-- Removing never makes the text longer. -/
theorem length_replaceAllChars_le (old : List Char) :
    ∀ l : List Char, (replaceAllChars old [] l).length ≤ l.length := by
  intro l
  generalize hn : l.length = n
  induction n using Nat.strong_induction_on generalizing l with
  | _ n ih =>
    cases l with
    | nil => rw [replaceAllChars_nil]; simp
    | cons c cs =>
      subst hn
      rw [replaceAllChars_cons]
      split
      · have hlt : (cs.drop (old.length - 1)).length < (c :: cs).length := by
          simp only [List.length_drop, List.length_cons]; omega
        have := ih _ hlt _ rfl
        simp only [List.nil_append]
        omega
      · have := ih cs.length (by simp) cs rfl
        simp only [List.length_cons]
        omega

/-- Removing an occurrence makes the text shorter. -/
theorem length_replaceAllChars_lt (old : List Char) (hold : old ≠ []) :
    ∀ l : List Char, old <:+: l → (replaceAllChars old [] l).length < l.length := by
  intro l
  induction l with
  | nil =>
    intro h
    exact absurd (List.infix_nil.mp h) hold
  | cons c cs ih =>
    intro h
    rw [replaceAllChars_cons]
    split
    · have := length_replaceAllChars_le old (cs.drop (old.length - 1))
      simp only [List.nil_append, List.length_drop, List.length_cons] at this ⊢
      omega
    · next hp =>
      rw [List.infix_cons_iff] at h
      rcases h with h | h
      · exact absurd (List.isPrefixOf_iff_prefix.mpr h) hp
      · have := ih h
        simp only [List.length_cons]
        omega

theorem ReplaceAll_data (s old : String) (hold : old ≠ "") :
    (ReplaceAll s old "").data = replaceAllChars old.data [] s.data := by
  simp [ReplaceAll, hold]

theorem data_ne_nil {old : String} (hold : old ≠ "") : old.data ≠ [] := by
  intro h
  apply hold
  cases old with
  | mk d => simp only at h; subst h; rfl

theorem removeUnwantedElements_eq_foldl (s : String) :
    removeUnwantedElements s = removedTags.foldl (fun acc old => ReplaceAll acc old "") s :=
  rfl

theorem foldl_ReplaceAll_of_not_occurs (tags : List String) (htags : ∀ old ∈ tags, old ≠ "") :
    ∀ t : String, (∀ old ∈ tags, ¬ occursIn old t) →
      tags.foldl (fun acc old => ReplaceAll acc old "") t = t := by
  induction tags with
  | nil => intro t _; rfl
  | cons o os ih =>
    intro t h
    have ho : ReplaceAll t o "" = t := by
      apply String.ext
      rw [ReplaceAll_data t o (htags o (List.mem_cons_self _ _))]
      exact replaceAllChars_of_not_infix _ _ _ (h o (List.mem_cons_self _ _))
    rw [List.foldl_cons, ho]
    exact ih (fun old hm => htags old (List.mem_cons_of_mem _ hm)) t
      (fun old hm => h old (List.mem_cons_of_mem _ hm))

theorem length_foldl_ReplaceAll_le (tags : List String) (htags : ∀ old ∈ tags, old ≠ "") :
    ∀ t : String,
      (tags.foldl (fun acc old => ReplaceAll acc old "") t).data.length ≤ t.data.length := by
  induction tags with
  | nil => intro t; exact Nat.le_refl _
  | cons o os ih =>
    intro t
    rw [List.foldl_cons]
    have h1 := ih (fun old hm => htags old (List.mem_cons_of_mem _ hm)) (ReplaceAll t o "")
    have h2 := length_replaceAllChars_le o.data t.data
    rw [← ReplaceAll_data t o (htags o (List.mem_cons_self _ _))] at h2
    omega

theorem length_foldl_ReplaceAll_lt (tags : List String) (htags : ∀ old ∈ tags, old ≠ "") :
    ∀ t : String, (∃ old ∈ tags, occursIn old t) →
      (tags.foldl (fun acc old => ReplaceAll acc old "") t).data.length < t.data.length := by
  induction tags with
  | nil => intro t h; obtain ⟨old, hm, -⟩ := h; cases hm
  | cons o os ih =>
    intro t h
    have hos : ∀ old ∈ os, old ≠ "" := fun old hm => htags old (List.mem_cons_of_mem _ hm)
    have hone : o ≠ "" := htags o (List.mem_cons_self _ _)
    rw [List.foldl_cons]
    by_cases ho : occursIn o t
    · have h1 := length_foldl_ReplaceAll_le os hos (ReplaceAll t o "")
      have h2 := length_replaceAllChars_lt o.data (data_ne_nil hone) t.data ho
      rw [← ReplaceAll_data t o hone] at h2
      omega
    · have hsame : ReplaceAll t o "" = t := by
        apply String.ext
        rw [ReplaceAll_data t o hone]
        exact replaceAllChars_of_not_infix _ _ _ ho
      rw [hsame]
      apply ih hos
      obtain ⟨old, hm, hocc⟩ := h
      rcases List.mem_cons.mp hm with rfl | hm
      · exact absurd hocc ho
      · exact ⟨old, hm, hocc⟩

theorem removedTags_ne_empty : ∀ old ∈ removedTags, old ≠ "" := by
  decide

/-- C10 fails on the text `<<p>p>`: the first application removes the inner
`<p>` and leaves `<p>`, a removed substring that reappears; the second
application removes it, so the two results differ. -/
theorem preprocessing_not_idempotent :
    removeUnwantedElements "<<p>p>" = "<p>" ∧
    removeUnwantedElements (removeUnwantedElements "<<p>p>") = "" ∧
    removeUnwantedElements (removeUnwantedElements "<<p>p>") ≠
      removeUnwantedElements "<<p>p>" := by
  have h1 : removeUnwantedElements "<<p>p>" = "<p>" := by
    simp [removeUnwantedElements, ReplaceAll, replaceAllChars]
  have h2 : removeUnwantedElements "<p>" = "" := by
    simp [removeUnwantedElements, ReplaceAll, replaceAllChars]
  refine ⟨h1, by rw [h1, h2], ?_⟩
  rw [h1, h2]
  decide

/-! ## C13: no structure-parse failure -/

/-- C13. `parseDLNode` returns a nil error on every list-element tree, and
`ParseNetscapeBookmarks` fails only when reading the input fails or when the
document builder fails: every error it returns is one of these two, wrapped with
the matching message; the "failed to parse bookmark structure" error never
occurs. -/
theorem extraction_never_fails :
    (∀ L : Node, ∃ items, parseDLNode L = .ok items) ∧
    (∀ (readAll : Except String String) (htmlParse : String → Except String Node)
        (err : String), ParseNetscapeBookmarks readAll htmlParse = .error err →
      (∃ readErr, readAll = .error readErr ∧ err = "failed to read input: " ++ readErr) ∨
      (∃ fileContent parseErr, readAll = .ok fileContent ∧
        htmlParse (removeUnwantedElements fileContent) = .error parseErr ∧
        err = "failed to parse HTML content: " ++ parseErr)) := by
  refine ⟨parseDLNode_ok, ?_⟩
  intro readAll htmlParse err h
  cases readAll with
  | error readErr =>
    left
    simp only [ParseNetscapeBookmarks, Except.error.injEq] at h
    exact ⟨readErr, rfl, h.symm⟩
  | ok fileContent =>
    right
    cases hp : htmlParse (removeUnwantedElements fileContent) with
    | error parseErr =>
      simp only [ParseNetscapeBookmarks, hp, Except.error.injEq] at h
      exact ⟨fileContent, parseErr, rfl, hp, h.symm⟩
    | ok doc =>
      exfalso
      cases hf : findBodyDL doc with
      | none => simp [ParseNetscapeBookmarks, hp, hf] at h
      | some rootDL =>
        obtain ⟨items, hitems⟩ := parseDLNode_ok rootDL
        simp [ParseNetscapeBookmarks, hp, hf, hitems] at h

/-! ## C14: a heading without its list -/

/-- C14 (folder-pairing law, unpaired case). Let `h` be a heading (`h3`) element
child of the list `L`, `pre` the children before it and `rest` the children
after it. When the first element among `rest` is not a `dl` element, or `rest`
holds no element, the item emitted for `h` is a folder with empty `Children`,
and the cursor stays on `h`: the items after it are exactly what the loop emits
for all of `rest`, one per marker of `rest`, the following element included. -/
theorem folder_pairing_unpaired (L : Node) (pre : List Node) (h : Node) (rest : List Node)
    (hL : L.children = pre ++ h :: rest)
    (hElem : h.Type_ = NodeType.ElementNode) (hTag : h.Data = "h3")
    (hNext : ∀ D, rest.find? isElementNode = some D → D.Data ≠ "dl") :
    ∃ before item tail,
      parseDLNode L = .ok (before ++ item :: tail) ∧
      before.length = countMarkers pre ∧
      item.Type_ = "folder" ∧ item.Children = [] ∧
      parseSiblings rest = .ok tail ∧
      tail.map BookmarkItem.Type_ = rest.filterMap markerType := by
  have hf : findFolderDL rest = none := findFolderDL_none_of_find hNext
  obtain ⟨items, hitems, htypes⟩ := parseSiblings_types rest
  have hhd : h.Data ≠ "dl" := by rw [hTag]; decide
  obtain ⟨before, tail, hlen, htail, hall⟩ := parseSiblings_split pre h rest hElem hhd
  rw [parseSiblings_h3_alone h rest items hElem hTag hf hitems] at htail
  cases htail
  exact ⟨before, folderItem h [], items, by rw [parseDLNode, hL, hall], hlen, rfl, rfl,
    hitems, htypes⟩

/-- C14 at a heading directly followed by a link: an empty folder, then the
bookmark of that link. -/
theorem folder_pairing_unpaired_witness :
    ∃ before item tail,
      parseDLNode headingThenLinkList = .ok (before ++ item :: tail) ∧
      before.length = countMarkers [] ∧
      item.Type_ = "folder" ∧ item.Children = [] ∧
      parseSiblings [childLink] = .ok tail ∧
      tail.map BookmarkItem.Type_ = [childLink].filterMap markerType :=
  folder_pairing_unpaired headingThenLinkList [] emptyHeading [childLink] rfl rfl rfl
    (by decide)

/-! ## C15: lists without markers -/

theorem parseSiblings_of_no_marker (l : List Node) (h : ∀ c ∈ l, markerType c = none) :
    parseSiblings l = .ok [] := by
  induction l with
  | nil => exact parseSiblings_nil
  | cons c cs ih =>
    rw [parseSiblings_skip c cs (h c (List.mem_cons_self _ _))]
    exact ih (fun x hx => h x (List.mem_cons_of_mem _ hx))

/-- C15. For every list element none of whose direct children is an `a`, `hr`
or `h3` element, `parseDLNode` returns the empty sequence: text and comment
nodes and elements with other tags give no item, and a nested `dl` that no
heading precedes is not entered. -/
theorem no_markers_no_items (L : Node) (h : ∀ c ∈ L.children, markerType c = none) :
    parseDLNode L = .ok [] :=
  parseSiblings_of_no_marker L.children h

/-- C15 at a list holding text, a comment, a paragraph and a nested list with a
link: the link of the nested list is dropped. -/
theorem no_markers_no_items_witness :
    (∀ c ∈ markerlessList.children, markerType c = none) ∧
    parseDLNode markerlessList = .ok [] :=
  ⟨by decide, no_markers_no_items markerlessList (by decide)⟩

/-! ## C17: nesting depth -/

theorem findFolderDL_nestedList (link : Node) (headings : List Node) :
    findFolderDL [nestedList link headings] = some (nestedList link headings, []) := by
  cases headings <;> rfl

theorem parseDLNode_nestedList (link : Node)
    (hLink : link.Type_ = NodeType.ElementNode ∧ link.Data = "a") :
    ∀ headings : List Node,
      (∀ h ∈ headings, h.Type_ = NodeType.ElementNode ∧ h.Data = "h3") →
      ∃ item, parseDLNode (nestedList link headings) = .ok [item] ∧
        isFolderChain link headings.length item := by
  intro headings
  induction headings with
  | nil =>
    intro _
    exact ⟨bookmarkItem link,
      parseSiblings_a link [] [] hLink.1 hLink.2 parseSiblings_nil, rfl⟩
  | cons h hs ih =>
    intro hall
    obtain ⟨child, hchild, hchain⟩ := ih (fun x hx => hall x (List.mem_cons_of_mem _ hx))
    obtain ⟨hElem, hTag⟩ := hall h (List.mem_cons_self _ _)
    refine ⟨folderItem h [child], ?_, rfl, child, rfl, hchain⟩
    exact parseSiblings_h3_paired h [nestedList link hs] (nestedList link hs) [] [child] []
      hElem hTag (findFolderDL_nestedList link hs) hchild parseSiblings_nil

/-- C17. For every `n ≥ 1`, on the list tree made of `n` nested heading-then-list
pairs with a single link in the innermost list, `parseDLNode` returns exactly
one item, a folder that heads a chain of `n` folders, each with a one-element
`Children` sequence, ending in the bookmark of the link. -/
theorem nesting_depth_reproduced (link : Node) (headings : List Node) (n : Nat)
    (hLink : link.Type_ = NodeType.ElementNode ∧ link.Data = "a")
    (hHeadings : ∀ h ∈ headings, h.Type_ = NodeType.ElementNode ∧ h.Data = "h3")
    (hn : headings.length = n) (hpos : 1 ≤ n) :
    ∃ item, parseDLNode (nestedList link headings) = .ok [item] ∧
      item.Type_ = "folder" ∧ isFolderChain link n item := by
  obtain ⟨item, hitem, hchain⟩ := parseDLNode_nestedList link hLink headings hHeadings
  rw [hn] at hchain
  refine ⟨item, hitem, ?_, hchain⟩
  cases n with
  | zero => omega
  | succ m => exact hchain.1

/-- C17 at the tree of the test "Nested folders": two headings and the link. -/
theorem nesting_depth_reproduced_witness :
    ∃ item, parseDLNode (nestedList grandchildLink nestedHeadings) = .ok [item] ∧
      item.Type_ = "folder" ∧ isFolderChain grandchildLink 2 item :=
  nesting_depth_reproduced grandchildLink nestedHeadings 2 (by decide) (by decide) rfl
    (by decide)

/-! ## C18: termination -/

/-- C18. `parseDLNode` is total: on every node tree it returns a result. Its
recursion is well founded because every step of the loop moves strictly forward
and every recursive call is on a child of the current list: when the lookahead
after the cursor `c` pairs a list `d`, then `d` is a `dl` element among the
children of `L`, and the siblings `after` with which the loop goes on are a
proper end part of the siblings `rest` that followed `c`. -/
theorem parseDLNode_terminates (L : Node) :
    (∃ items, parseDLNode L = .ok items) ∧
    ∀ (c : Node) (rest : List Node) (d : Node) (after : List Node),
      c :: rest <:+ L.children → findFolderDL rest = some (d, after) →
      d ∈ L.children ∧ isTag "dl" d = true ∧
        after <:+ rest ∧ after.length < rest.length ∧
        sizeOf d.children < sizeOf L.children := by
  refine ⟨parseDLNode_ok L, ?_⟩
  intro c rest d after hsuf hf
  obtain ⟨skipped, hrest, -, hdElem, hdTag⟩ := findFolderDL_eq_some hf
  obtain ⟨front, hfront⟩ := hsuf
  have hsize := findFolderDL_sizeOf hf
  have hsz : ∀ (xs ys : List Node), sizeOf ys ≤ sizeOf (xs ++ ys) := by
    intro xs ys
    induction xs with
    | nil => simp
    | cons x xs ih => simp only [List.cons_append, List.cons.sizeOf_spec]; omega
  have h1 := hsz front (c :: rest)
  rw [hfront] at h1
  simp only [List.cons.sizeOf_spec] at h1
  refine ⟨?_, ?_, ?_, ?_, by omega⟩
  · rw [← hfront, hrest]
    simp
  · simp [isTag, hdElem, hdTag]
  · exact ⟨skipped ++ [d], by rw [hrest]; simp⟩
  · rw [hrest]
    simp only [List.length_append, List.length_cons]
    omega

/-! ## C20: the locator, characterised -/

theorem findSome_eq_some_find {α β : Type} (f : α → Option β) {l : List α} {d : β}
    (h : l.findSome? f = some d) :
    ∃ b, l.find? (fun x => (f x).isSome) = some b ∧ f b = some d := by
  induction l with
  | nil => simp at h
  | cons x xs ih =>
    cases hx : f x with
    | none =>
      simp only [List.findSome?, hx] at h
      obtain ⟨b, hb, hfb⟩ := ih h
      exact ⟨b, by simp [List.find?, hx, hb], hfb⟩
    | some y =>
      simp only [List.findSome?, hx, Option.some.injEq] at h
      subst h
      exact ⟨x, by simp [List.find?, hx], hx⟩

/-- C20 (exact characterisation of the locator). `findBodyDL` returns a node if
and only if some body element of the tree has a direct child that is a `dl`
element; and the node it returns is a `dl` element, namely the first `dl` child
of the first body element, in pre-order, that has a `dl` child. -/
theorem locator_characterisation (doc : Node) :
    ((∃ d, findBodyDL doc = some d) ↔
      ∃ b ∈ preorder doc, isTag "body" b = true ∧ ∃ c ∈ b.children, isTag "dl" c = true) ∧
    (∀ d, findBodyDL doc = some d →
      isTag "dl" d = true ∧
      ∃ b, (preorder doc).find? isBodyWithDL = some b ∧ isTag "body" b = true ∧
        b.children.find? (isTag "dl") = some d) := by
  have hpred : (fun x => (bodyDL x).isSome) = isBodyWithDL := by
    funext n
    exact bodyDL_isSome n
  constructor
  · rw [← Option.isSome_iff_exists, findBodyDL_isSome, hasBodyDL, List.any_eq_true]
    constructor
    · rintro ⟨b, hb, hbd⟩
      rw [Bool.and_eq_true, List.any_eq_true] at hbd
      exact ⟨b, hb, hbd.1, hbd.2⟩
    · rintro ⟨b, hb, hbody, hc⟩
      refine ⟨b, hb, ?_⟩
      rw [Bool.and_eq_true, List.any_eq_true]
      exact ⟨hbody, hc⟩
  · intro d hd
    refine ⟨(findBodyDL_some hd).1, ?_⟩
    rw [findBodyDL_eq_findSome] at hd
    obtain ⟨b, hb, hbd⟩ := findSome_eq_some_find bodyDL hd
    rw [hpred] at hb
    have hbody : isTag "body" b = true := by
      have := List.find?_some hb
      simp only [isBodyWithDL, Bool.and_eq_true] at this
      exact this.1
    refine ⟨b, hb, hbody, ?_⟩
    simpa [bodyDL, hbody] using hbd

/-! ## C16: non-element nodes are transparent -/

theorem stripNode_Type (n : Node) : (stripNode n).Type_ = n.Type_ := by
  cases n with
  | mk t d a cs => simp only [stripNode]; split <;> rfl

theorem stripNode_Data (n : Node) : (stripNode n).Data = n.Data := by
  cases n with
  | mk t d a cs => simp only [stripNode]; split <;> rfl

theorem stripNode_of_not_dl (n : Node) (h : n.Data ≠ "dl") : stripNode n = n := by
  cases n with
  | mk t d a cs =>
    have hd : d ≠ "dl" := h
    simp [stripNode, hd]

theorem stripNode_children_of_dl (n : Node) (ht : n.Type_ = NodeType.ElementNode)
    (hd : n.Data = "dl") : (stripNode n).children = stripSiblings n.children := by
  cases n with
  | mk t d a cs =>
    have ht2 : t = NodeType.ElementNode := ht
    have hd2 : d = "dl" := hd
    simp [stripNode, ht2, hd2, Node.children]

theorem markerType_stripNode (n : Node) : markerType (stripNode n) = markerType n := by
  simp only [markerType, stripNode_Type, stripNode_Data]

theorem stripSiblings_cons_element (c : Node) (cs : List Node)
    (h : c.Type_ = NodeType.ElementNode) :
    stripSiblings (c :: cs) = stripNode c :: stripSiblings cs := by
  simp [stripSiblings, h]

theorem stripSiblings_cons_other (c : Node) (cs : List Node)
    (h : c.Type_ ≠ NodeType.ElementNode) :
    stripSiblings (c :: cs) = stripSiblings cs := by
  simp [stripSiblings, h]

/-- The lookahead pairs the same list before and after stripping. -/
theorem findFolderDL_stripSiblings (rest : List Node) :
    findFolderDL (stripSiblings rest) =
      (findFolderDL rest).map (fun found => (stripNode found.1, stripSiblings found.2)) := by
  induction rest with
  | nil => rfl
  | cons n ns ih =>
    by_cases hn : n.Type_ = NodeType.ElementNode
    · rw [stripSiblings_cons_element n ns hn,
        findFolderDL_element _ _ (by rw [stripNode_Type]; exact hn),
        findFolderDL_element n ns hn, stripNode_Data]
      by_cases hd : n.Data = "dl"
      · simp [hd]
      · simp [hd]
    · rw [stripSiblings_cons_other n ns hn, ih]
      simp [findFolderDL, hn]

theorem parseSiblings_stripSiblings (l : List Node) :
    parseSiblings (stripSiblings l) = parseSiblings l := by
  induction l using siblings_induction with
  | hnil => rfl
  | hcons c rest ih ihf =>
    by_cases hElem : c.Type_ = NodeType.ElementNode
    · rw [stripSiblings_cons_element c rest hElem]
      obtain ⟨items, hitems⟩ := parseSiblings_ok rest
      have hstripped : parseSiblings (stripSiblings rest) = .ok items := by rw [ih, hitems]
      have hsElem : (stripNode c).Type_ = NodeType.ElementNode := by
        rw [stripNode_Type]; exact hElem
      rcases markerType_cases c with hm | ⟨-, ha, -⟩ | ⟨-, hr, -⟩ | ⟨-, hh, -⟩
      · rw [parseSiblings_skip c rest hm,
          parseSiblings_skip (stripNode c) _ (by rw [markerType_stripNode]; exact hm), ih]
      · have hsame : stripNode c = c := stripNode_of_not_dl c (by rw [ha]; decide)
        rw [hsame, parseSiblings_a c rest items hElem ha hitems,
          parseSiblings_a c _ items hElem ha hstripped]
      · have hsame : stripNode c = c := stripNode_of_not_dl c (by rw [hr]; decide)
        rw [hsame, parseSiblings_hr c rest items hElem hr hitems,
          parseSiblings_hr c _ items hElem hr hstripped]
      · have hsame : stripNode c = c := stripNode_of_not_dl c (by rw [hh]; decide)
        rw [hsame]
        cases hf : findFolderDL rest with
        | none =>
          have hfs : findFolderDL (stripSiblings rest) = none := by
            rw [findFolderDL_stripSiblings, hf]; rfl
          rw [parseSiblings_h3_alone c rest items hElem hh hf hitems,
            parseSiblings_h3_alone c _ items hElem hh hfs hstripped]
        | some found =>
          obtain ⟨d, after⟩ := found
          have hfs : findFolderDL (stripSiblings rest) =
              some (stripNode d, stripSiblings after) := by
            rw [findFolderDL_stripSiblings, hf]; rfl
          obtain ⟨-, -, -, hdElem, hdTag⟩ := findFolderDL_eq_some hf
          obtain ⟨ihd, iha⟩ := ihf d after hf
          obtain ⟨children, hch⟩ := parseSiblings_ok d.children
          obtain ⟨its, hits⟩ := parseSiblings_ok after
          have hchs : parseSiblings (stripNode d).children = .ok children := by
            rw [stripNode_children_of_dl d hdElem hdTag, ihd, hch]
          have hitss : parseSiblings (stripSiblings after) = .ok its := by rw [iha, hits]
          rw [parseSiblings_h3_paired c rest d after children its hElem hh hf hch hits,
            parseSiblings_h3_paired c _ _ _ children its hElem hh hfs hchs hitss]
    · rw [stripSiblings_cons_other c rest hElem,
        parseSiblings_skip c rest (markerType_of_not_element hElem), ih]

/-- C16. For every list element `L`, `parseDLNode` returns the same result on
`L` and on `L` with all non-element direct children (text, comments) removed
from the child list of `L` and of every list below it, so of every list reached
by the recursion (a list that no heading precedes is stripped too, and is not
entered on either side). -/
theorem non_elements_transparent (L : Node) :
    parseDLNode (withoutNonElements L) = parseDLNode L :=
  parseSiblings_stripSiblings L.children

/-! ## C19: names are trimmed -/

theorem dropWhile_append_singleton {α : Type} (p : α → Bool) (l : List α) (a : α)
    (ha : p a = false) : (l ++ [a]).dropWhile p = l.dropWhile p ++ [a] := by
  induction l with
  | nil => simp [List.dropWhile, ha]
  | cons x xs ih =>
    cases hx : p x with
    | true => simp [List.dropWhile, hx, ih]
    | false => simp [List.dropWhile, hx]

theorem dropWhile_head_false {α : Type} (p : α → Bool) (l : List α) :
    l.dropWhile p = [] ∨ ∃ a rest, l.dropWhile p = a :: rest ∧ p a = false := by
  induction l with
  | nil => left; rfl
  | cons x xs ih =>
    cases hx : p x with
    | true => simpa [List.dropWhile, hx] using ih
    | false => right; exact ⟨x, xs, by simp [List.dropWhile, hx], hx⟩

/-- Trimming a list at both ends twice is trimming it once. -/
theorem trim_chars_idempotent (p : Char → Bool) (l : List Char) :
    ((((l.dropWhile p).reverse.dropWhile p).reverse.dropWhile p).reverse.dropWhile p).reverse =
      ((l.dropWhile p).reverse.dropWhile p).reverse := by
  rcases dropWhile_head_false p l with h | ⟨a, rest, h, ha⟩
  · rw [h]; rfl
  · rw [h, List.reverse_cons, dropWhile_append_singleton p _ a ha, List.reverse_append]
    simp only [List.reverse_cons, List.reverse_nil, List.nil_append, List.singleton_append,
      List.dropWhile_cons, ha, Bool.false_eq_true, if_false]
    rw [dropWhile_append_singleton p _ a ha, List.reverse_append]
    simp only [List.reverse_cons, List.reverse_nil, List.nil_append, List.singleton_append,
      List.cons.injEq, true_and]
    rcases dropWhile_head_false p rest.reverse with h2 | ⟨b, rest2, h2, hb⟩
    · rw [h2]; rfl
    · rw [h2]
      simp [List.dropWhile, hb]

theorem TrimSpace_idempotent (s : String) : TrimSpace (TrimSpace s) = TrimSpace s := by
  simp only [TrimSpace]
  rw [trim_chars_idempotent]

theorem getNodeText_element (c : Node) (h : c.Type_ = NodeType.ElementNode) :
    getNodeText c = TrimSpace (getNodeTextChildren c.children) := by
  cases c with
  | mk t d a cs =>
    have ht : t = NodeType.ElementNode := h
    subst ht
    simp [getNodeText, Node.children]

theorem TrimSpace_getNodeText (c : Node) (h : c.Type_ = NodeType.ElementNode) :
    TrimSpace (getNodeText c) = getNodeText c := by
  rw [getNodeText_element c h, TrimSpace_idempotent]

theorem parseSiblings_namesTrimmed (l : List Node) :
    ∃ items, parseSiblings l = .ok items ∧ namesTrimmedList items := by
  induction l using siblings_induction with
  | hnil => exact ⟨[], parseSiblings_nil, trivial⟩
  | hcons c rest ih ihf =>
    obtain ⟨items, h, hnt⟩ := ih
    rcases markerType_cases c with hm | ⟨hc, ha, -⟩ | ⟨hc, hr, -⟩ | ⟨hc, hh, -⟩
    · exact ⟨items, by rw [parseSiblings_skip c rest hm, h], hnt⟩
    · refine ⟨_, parseSiblings_a c rest items hc ha h, ?_, hnt⟩
      exact ⟨fun _ => TrimSpace_getNodeText c hc, trivial⟩
    · refine ⟨_, parseSiblings_hr c rest items hc hr h, ?_, hnt⟩
      exact ⟨fun _ => by decide, trivial⟩
    · cases hf : findFolderDL rest with
      | none =>
        refine ⟨_, parseSiblings_h3_alone c rest items hc hh hf h, ?_, hnt⟩
        exact ⟨fun _ => TrimSpace_getNodeText c hc, trivial⟩
      | some found =>
        obtain ⟨d, after⟩ := found
        obtain ⟨⟨ch, hch, hcht⟩, ⟨its, hits, hitst⟩⟩ := ihf d after hf
        refine ⟨_, parseSiblings_h3_paired c rest d after ch its hc hh hf hch hits, ?_, hitst⟩
        exact ⟨fun _ => TrimSpace_getNodeText c hc, hcht⟩

/-- C19. For every list element `L`, `parseDLNode L` returns a sequence in which
every item of type bookmark or folder, at any depth, has a `Name` without
leading or trailing white space: `Name` equals its own whitespace-trim. -/
theorem names_are_trimmed (L : Node) :
    ∃ items, parseDLNode L = .ok items ∧ namesTrimmedList items :=
  parseSiblings_namesTrimmed L.children

/-! ## C12: close tags of definition terms survive -/

theorem isPrefixOf_cons_of_ne (body : List Char) (x : Char) (l : List Char) (hx : x ≠ '<') :
    ('<' :: body).isPrefixOf (x :: l) = false := by
  have : ('<' == x) = false := by
    rw [beq_eq_false_iff_ne]
    exact fun h => hx h.symm
  simp [List.isPrefixOf, this]

/-- Characters before the next `<` are copied. -/
theorem replaceAllChars_copy (body new w rest : List Char) (hw : ∀ x ∈ w, x ≠ '<') :
    replaceAllChars ('<' :: body) new (w ++ rest) =
      w ++ replaceAllChars ('<' :: body) new rest := by
  induction w with
  | nil => rfl
  | cons x xs ih =>
    rw [List.cons_append, replaceAllChars_cons,
      isPrefixOf_cons_of_ne body x _ (hw x (List.mem_cons_self _ _))]
    simp only [Bool.false_eq_true, if_false, List.cons_append, List.cons.injEq, true_and]
    exact ih (fun y hy => hw y (List.mem_cons_of_mem _ hy))

theorem TagText.body_ne {t : List Char} (h : TagText t) :
    ∃ body, t = '<' :: (body ++ ['>']) ∧ ∀ x ∈ body ++ ['>'], x ≠ '<' := by
  obtain ⟨body, rfl, h1, -⟩ := h
  refine ⟨body, rfl, ?_⟩
  intro x hx hxe
  subst hxe
  rcases List.mem_append.mp hx with hx | hx
  · exact h1 hx
  · simp at hx

/-- An occurrence of a tag that starts at the cursor is still there after the
rest of the text is rewritten. -/
theorem prefix_replaceAllChars {q old : List Char} (hq : TagText q) (hold : TagText old)
    (c : Char) (cs : List Char) (h : q <+: c :: cs) :
    q <+: c :: replaceAllChars old [] cs := by
  obtain ⟨qb, rfl, hqb⟩ := hq.body_ne
  obtain ⟨ob, rfl, -⟩ := hold.body_ne
  obtain ⟨rest, hrest⟩ := h
  simp only [List.cons_append, List.cons.injEq] at hrest
  obtain ⟨rfl, rfl⟩ := hrest
  rw [replaceAllChars_copy _ _ _ _ hqb]
  exact ⟨replaceAllChars ('<' :: (ob ++ ['>'])) [] rest, by simp⟩

theorem tag_bodies_eq : ∀ (qb ob rest : List Char), '>' ∉ qb → '>' ∉ ob →
    qb ++ ['>'] <+: ob ++ '>' :: rest → qb = ob
  | [], [], _, _, _, _ => rfl
  | [], y :: ob, rest, _, ho, h => by
    obtain ⟨t, ht⟩ := h
    simp only [List.nil_append, List.cons_append, List.singleton_append,
      List.cons.injEq] at ht
    exact absurd (ht.1 ▸ List.mem_cons_self _ _) ho
  | x :: qb, [], rest, hq, _, h => by
    obtain ⟨t, ht⟩ := h
    simp only [List.nil_append, List.cons_append, List.cons.injEq] at ht
    exact absurd (ht.1 ▸ List.mem_cons_self _ _) hq
  | x :: qb, y :: ob, rest, hq, ho, h => by
    obtain ⟨t, ht⟩ := h
    simp only [List.cons_append, List.cons.injEq] at ht
    obtain ⟨rfl, ht⟩ := ht
    have := tag_bodies_eq qb ob rest (fun hm => hq (List.mem_cons_of_mem _ hm))
      (fun hm => ho (List.mem_cons_of_mem _ hm)) ⟨t, ht⟩
    rw [this]

/-- Two different tags do not start at the same position. -/
theorem not_prefix_of_tag {q old : List Char} (hq : TagText q) (hold : TagText old)
    (hne : q ≠ old) (rest : List Char) : ¬ q <+: old ++ rest := by
  obtain ⟨qb, rfl, -, hqb⟩ := hq
  obtain ⟨ob, rfl, -, hob⟩ := hold
  intro h
  apply hne
  obtain ⟨t, ht⟩ := h
  simp only [List.cons_append, List.cons.injEq, true_and] at ht
  have := tag_bodies_eq qb ob rest hqb hob ⟨t, by simpa using ht⟩
  rw [this]

theorem countOccurrences_skip (body w rest : List Char) (hw : ∀ x ∈ w, x ≠ '<') :
    countOccurrences ('<' :: body) (w ++ rest) = countOccurrences ('<' :: body) rest := by
  induction w with
  | nil => rfl
  | cons x xs ih =>
    rw [List.cons_append, countOccurrences,
      isPrefixOf_cons_of_ne body x _ (hw x (List.mem_cons_self _ _))]
    simp only [Bool.false_eq_true, if_false, Nat.zero_add]
    exact ih (fun y hy => hw y (List.mem_cons_of_mem _ hy))

/-- No occurrence of a tag starts inside an occurrence of another tag. -/
theorem countOccurrences_tag_append {q old : List Char} (hq : TagText q) (hold : TagText old)
    (hne : q ≠ old) (rest : List Char) :
    countOccurrences q (old ++ rest) = countOccurrences q rest := by
  have hnp := not_prefix_of_tag hq hold hne rest
  obtain ⟨ob, rfl, hob⟩ := hold.body_ne
  obtain ⟨qb, rfl, -⟩ := hq.body_ne
  have hp : ('<' :: (qb ++ ['>'])).isPrefixOf ('<' :: (ob ++ ['>']) ++ rest) = false := by
    rw [Bool.eq_false_iff]
    exact fun h => hnp (List.isPrefixOf_iff_prefix.mp h)
  rw [List.cons_append] at hp ⊢
  rw [countOccurrences, hp]
  simp only [Bool.false_eq_true, if_false, Nat.zero_add]
  exact countOccurrences_skip _ _ _ hob

/-- One replacement step removes no occurrence of a tag other than its own. -/
theorem countOccurrences_replaceAllChars {q old : List Char} (hq : TagText q)
    (hold : TagText old) (hne : q ≠ old) :
    ∀ l : List Char, countOccurrences q l ≤ countOccurrences q (replaceAllChars old [] l) := by
  intro l
  generalize hn : l.length = n
  induction n using Nat.strong_induction_on generalizing l with
  | _ n ih =>
    cases l with
    | nil => rw [replaceAllChars_nil]
    | cons c cs =>
      subst hn
      rw [replaceAllChars_cons]
      split
      · next hp =>
        have hpre : old <+: c :: cs := List.isPrefixOf_iff_prefix.mp hp
        have hsplit : c :: cs = old ++ cs.drop (old.length - 1) := by
          have h1 := List.prefix_iff_eq_append.mp hpre
          obtain ⟨ob, rfl, -⟩ := hold.body_ne
          rw [← h1]
          simp
        have hlt : (cs.drop (old.length - 1)).length < (c :: cs).length := by
          simp only [List.length_drop, List.length_cons]; omega
        have := ih _ hlt _ rfl
        rw [List.nil_append]
        calc countOccurrences q (c :: cs)
            = countOccurrences q (old ++ cs.drop (old.length - 1)) := by rw [← hsplit]
          _ = countOccurrences q (cs.drop (old.length - 1)) :=
            countOccurrences_tag_append hq hold hne _
          _ ≤ _ := this
      · have hcs := ih cs.length (by simp) cs rfl
        rw [countOccurrences, countOccurrences]
        by_cases hqp : q.isPrefixOf (c :: cs) = true
        · have h2 : q.isPrefixOf (c :: replaceAllChars old [] cs) = true :=
            List.isPrefixOf_iff_prefix.mpr
              (prefix_replaceAllChars hq hold c cs (List.isPrefixOf_iff_prefix.mp hqp))
          rw [hqp, h2]
          simp only [if_true]
          omega
        · have h0 : (if q.isPrefixOf (c :: cs) = true then 1 else 0) = 0 := if_neg hqp
          rw [h0]
          omega

theorem TagText.ne_empty {old : String} (h : TagText old.data) : old ≠ "" := by
  obtain ⟨body, hb, -⟩ := h
  intro he
  rw [he] at hb
  cases hb

theorem removedTags_tagText : ∀ old ∈ removedTags, TagText old.data := by
  intro old h
  simp only [removedTags, List.mem_cons, List.mem_singleton, List.not_mem_nil,
    or_false] at h
  rcases h with rfl | rfl | rfl | rfl | rfl | rfl
  · exact ⟨['p'], rfl, by decide, by decide⟩
  · exact ⟨['P'], rfl, by decide, by decide⟩
  · exact ⟨['/', 'p'], rfl, by decide, by decide⟩
  · exact ⟨['/', 'P'], rfl, by decide, by decide⟩
  · exact ⟨['D', 'T'], rfl, by decide, by decide⟩
  · exact ⟨['d', 't'], rfl, by decide, by decide⟩

theorem occurrences_ReplaceAll (q old : String) (hq : TagText q.data) (hold : TagText old.data)
    (hne : q.data ≠ old.data) (t : String) :
    occurrences q t ≤ occurrences q (ReplaceAll t old "") := by
  unfold occurrences
  rw [ReplaceAll_data t old hold.ne_empty]
  exact countOccurrences_replaceAllChars hq hold hne t.data

theorem occurrences_foldl_ReplaceAll (q : String) (hq : TagText q.data) (tags : List String)
    (htags : ∀ old ∈ tags, TagText old.data ∧ q.data ≠ old.data) :
    ∀ t : String,
      occurrences q t ≤ occurrences q (tags.foldl (fun acc old => ReplaceAll acc old "") t) := by
  induction tags with
  | nil => intro t; exact Nat.le_refl _
  | cons o os ih =>
    intro t
    rw [List.foldl_cons]
    obtain ⟨ho, hne⟩ := htags o (List.mem_cons_self _ _)
    exact Nat.le_trans (occurrences_ReplaceAll q o hq ho hne t)
      (ih (fun old hm => htags old (List.mem_cons_of_mem _ hm)) _)

/-- C12. The close tags of definition terms are left untouched: no replacement
step of the preprocessor lowers the number of occurrences of `</DT>` or of
`</dt>`, and so for every input text `s` the output holds at least as many
occurrences of each as `s` does. -/
theorem close_tags_survive (s : String) :
    occurrences "</DT>" s ≤ occurrences "</DT>" (removeUnwantedElements s) ∧
    occurrences "</dt>" s ≤ occurrences "</dt>" (removeUnwantedElements s) ∧
    (∀ old ∈ removedTags, ∀ t : String,
      occurrences "</DT>" t ≤ occurrences "</DT>" (ReplaceAll t old "") ∧
      occurrences "</dt>" t ≤ occurrences "</dt>" (ReplaceAll t old "")) := by
  have hU : TagText "</DT>".data := ⟨['/', 'D', 'T'], rfl, by decide, by decide⟩
  have hL : TagText "</dt>".data := ⟨['/', 'd', 't'], rfl, by decide, by decide⟩
  have hneU : ∀ old ∈ removedTags, "</DT>".data ≠ old.data := by decide
  have hneL : ∀ old ∈ removedTags, "</dt>".data ≠ old.data := by decide
  refine ⟨?_, ?_, ?_⟩
  · rw [removeUnwantedElements_eq_foldl]
    exact occurrences_foldl_ReplaceAll _ hU _
      (fun old hm => ⟨removedTags_tagText old hm, hneU old hm⟩) s
  · rw [removeUnwantedElements_eq_foldl]
    exact occurrences_foldl_ReplaceAll _ hL _
      (fun old hm => ⟨removedTags_tagText old hm, hneL old hm⟩) s
  · intro old hm t
    exact ⟨occurrences_ReplaceAll _ old hU (removedTags_tagText old hm) (hneU old hm) t,
      occurrences_ReplaceAll _ old hL (removedTags_tagText old hm) (hneL old hm) t⟩

/-! ## C11: what the output no longer contains -/

theorem replaceAllChars_cons_of_ne (body new : List Char) (x : Char) (xs : List Char)
    (hx : x ≠ '<') :
    replaceAllChars ('<' :: body) new (x :: xs) = x :: replaceAllChars ('<' :: body) new xs :=
  replaceAllChars_copy body new [x] xs (by simpa using hx)

theorem closesBeforeNextOpen_replaceAllChars (body : List Char) :
    ∀ cs : List Char, closesBeforeNextOpen cs = true →
      closesBeforeNextOpen (replaceAllChars ('<' :: body) [] cs) = true := by
  intro cs
  induction cs with
  | nil => intro _; rw [replaceAllChars_nil]; rfl
  | cons x xs ih =>
    intro h
    by_cases hx : x = '<'
    · simp [closesBeforeNextOpen, hx] at h
    · rw [replaceAllChars_cons_of_ne body [] x xs hx]
      by_cases hg : x = '>'
      · simp [closesBeforeNextOpen, hg]
      · simp only [closesBeforeNextOpen, hx, hg, if_false] at h ⊢
        exact ih h

theorem tagsNotNested_drop : ∀ (n : Nat) (l : List Char), tagsNotNested l = true →
    tagsNotNested (l.drop n) = true
  | 0, l, h => by simpa using h
  | n + 1, [], _ => by simp [tagsNotNested]
  | n + 1, c :: cs, h => by
    simp only [tagsNotNested, Bool.and_eq_true] at h
    simpa using tagsNotNested_drop n cs h.2

theorem tagsNotNested_replaceAllChars (body : List Char) :
    ∀ l : List Char, tagsNotNested l = true →
      tagsNotNested (replaceAllChars ('<' :: body) [] l) = true := by
  intro l
  generalize hn : l.length = n
  induction n using Nat.strong_induction_on generalizing l with
  | _ n ih =>
    intro h
    cases l with
    | nil => rw [replaceAllChars_nil]; rfl
    | cons c cs =>
      subst hn
      rw [replaceAllChars_cons]
      split
      · have hlt : (cs.drop (('<' :: body).length - 1)).length < (c :: cs).length := by
          simp only [List.length_drop, List.length_cons]; omega
        simp only [tagsNotNested, Bool.and_eq_true] at h
        rw [List.nil_append]
        exact ih _ hlt _ rfl (tagsNotNested_drop _ cs h.2)
      · simp only [tagsNotNested, Bool.and_eq_true] at h ⊢
        refine ⟨?_, ih cs.length (by simp) cs rfl h.2⟩
        by_cases hc : c = '<'
        · simp only [hc, if_true] at h ⊢
          exact closesBeforeNextOpen_replaceAllChars body cs h.1
        · simp [hc]

/-- After a `<` that closes before the next `<`, the rest of a tag that is read
in the rewritten text was already there in the text. -/
theorem prefix_of_prefix_replaceAllChars (body : List Char) :
    ∀ (qb cs : List Char), '>' ∉ qb → closesBeforeNextOpen cs = true →
      qb ++ ['>'] <+: replaceAllChars ('<' :: body) [] cs → qb ++ ['>'] <+: cs := by
  intro qb
  induction qb with
  | nil =>
    intro cs _ hcl h
    cases cs with
    | nil => rw [replaceAllChars_nil] at h; simp at h
    | cons x xs =>
      by_cases hx : x = '<'
      · simp [closesBeforeNextOpen, hx] at hcl
      · rw [replaceAllChars_cons_of_ne body [] x xs hx] at h
        obtain ⟨t, ht⟩ := h
        simp only [List.nil_append, List.singleton_append, List.cons.injEq] at ht
        exact ⟨xs, by rw [← ht.1]; rfl⟩
  | cons y qb ih =>
    intro cs hq hcl h
    cases cs with
    | nil => rw [replaceAllChars_nil] at h; simp at h
    | cons x xs =>
      by_cases hx : x = '<'
      · simp [closesBeforeNextOpen, hx] at hcl
      · rw [replaceAllChars_cons_of_ne body [] x xs hx] at h
        obtain ⟨t, ht⟩ := h
        simp only [List.cons_append, List.cons.injEq] at ht
        obtain ⟨rfl, ht⟩ := ht
        have hy : y ≠ '>' := fun he => hq (he ▸ List.mem_cons_self _ _)
        simp only [closesBeforeNextOpen, hx, hy, if_false] at hcl
        obtain ⟨t2, ht2⟩ := ih xs (fun hm => hq (List.mem_cons_of_mem _ hm)) hcl ⟨t, ht⟩
        exact ⟨t2, by simp [← ht2]⟩

/-- In a text without nested tags, a tag that occurs after one replacement step
occurred before it, and is not the tag that the step removes. -/
theorem infix_replaceAllChars {q old : List Char} (hq : TagText q) (hold : TagText old) :
    ∀ l : List Char, tagsNotNested l = true → q <:+: replaceAllChars old [] l →
      q <:+: l ∧ q ≠ old := by
  obtain ⟨ob, rfl, -, -⟩ := hold
  obtain ⟨qb, rfl, -, hqb⟩ := hq
  intro l
  generalize hn : l.length = n
  induction n using Nat.strong_induction_on generalizing l with
  | _ n ih =>
    intro hflat h
    cases l with
    | nil =>
      rw [replaceAllChars_nil] at h
      simp at h
    | cons c cs =>
      subst hn
      rw [replaceAllChars_cons] at h
      simp only [tagsNotNested, Bool.and_eq_true] at hflat
      split at h
      · have hlt : (cs.drop (('<' :: (ob ++ ['>'])).length - 1)).length < (c :: cs).length := by
          simp only [List.length_drop, List.length_cons]; omega
        rw [List.nil_append] at h
        obtain ⟨h1, h2⟩ := ih _ hlt _ rfl (tagsNotNested_drop _ cs hflat.2) h
        refine ⟨?_, h2⟩
        exact List.IsInfix.trans h1
          (List.IsInfix.trans (List.drop_suffix _ cs).isInfix (List.suffix_cons c cs).isInfix)
      · next hp =>
        rcases List.infix_cons_iff.mp h with hpre | hin
        · obtain ⟨t, ht⟩ := hpre
          simp only [List.cons_append, List.cons.injEq] at ht
          obtain ⟨rfl, ht⟩ := ht
          simp only [if_true] at hflat
          have hcs := prefix_of_prefix_replaceAllChars (ob ++ ['>']) qb cs hqb hflat.1
            ⟨t, ht⟩
          have hfull : '<' :: (qb ++ ['>']) <+: '<' :: cs := by
            obtain ⟨t2, ht2⟩ := hcs
            exact ⟨t2, by simp [← ht2]⟩
          refine ⟨hfull.isInfix, ?_⟩
          intro he
          rw [he] at hfull
          exact hp (List.isPrefixOf_iff_prefix.mpr hfull)
        · obtain ⟨h1, h2⟩ := ih cs.length (by simp) cs rfl hflat.2 hin
          exact ⟨List.IsInfix.trans h1 (List.suffix_cons c cs).isInfix, h2⟩

theorem TagText.data_eq {old : String} (h : TagText old.data) :
    ∃ body, old.data = '<' :: body := by
  obtain ⟨body, hb, -⟩ := h
  exact ⟨body ++ ['>'], hb⟩

/-- Over a run of replacement steps on a text without nested tags: the text
stays without nested tags, and a tag that occurs at the end occurred at the
start and is none of the tags removed. -/
theorem foldl_ReplaceAll_tags (tags : List String) (htags : ∀ old ∈ tags, TagText old.data) :
    ∀ t : String, tagsNotNested t.data = true →
      tagsNotNested (tags.foldl (fun acc old => ReplaceAll acc old "") t).data = true ∧
      ∀ q : String, TagText q.data →
        occursIn q (tags.foldl (fun acc old => ReplaceAll acc old "") t) →
        occursIn q t ∧ ∀ old ∈ tags, q.data ≠ old.data := by
  induction tags with
  | nil =>
    intro t ht
    exact ⟨ht, fun q _ hocc => ⟨hocc, fun old hm => by cases hm⟩⟩
  | cons o os ih =>
    intro t ht
    have ho := htags o (List.mem_cons_self _ _)
    obtain ⟨body, hbody⟩ := ho.data_eq
    have hdata := ReplaceAll_data t o ho.ne_empty
    have hflat : tagsNotNested (ReplaceAll t o "").data = true := by
      rw [hdata, hbody]
      exact tagsNotNested_replaceAllChars body t.data ht
    obtain ⟨h1, h2⟩ := ih (fun old hm => htags old (List.mem_cons_of_mem _ hm)) _ hflat
    rw [List.foldl_cons]
    refine ⟨h1, ?_⟩
    intro q hq hocc
    obtain ⟨hocc1, hnot⟩ := h2 q hq hocc
    unfold occursIn at hocc1
    rw [hdata] at hocc1
    obtain ⟨h3, h4⟩ := infix_replaceAllChars hq ho t.data ht hocc1
    refine ⟨h3, ?_⟩
    intro old hm
    rcases List.mem_cons.mp hm with rfl | hm
    · exact h4
    · exact hnot old hm

/-- C11 fails on the text `<<DT>p>`: removing `<DT>`, a later step than the
removal of `<p>`, leaves `<p>` in the output. It also fails on `<Dt>`: the
mixed-case variants of the definition-term tag are not among the replaced
strings and stay in the output. -/
theorem removed_tags_remain :
    removeUnwantedElements "<<DT>p>" = "<p>" ∧
    occursIn "<p>" (removeUnwantedElements "<<DT>p>") ∧
    removeUnwantedElements "<Dt>" = "<Dt>" ∧
    occursIn "<Dt>" (removeUnwantedElements "<Dt>") := by
  have h1 : removeUnwantedElements "<<DT>p>" = "<p>" := by
    simp [removeUnwantedElements, ReplaceAll, replaceAllChars]
  have h2 : removeUnwantedElements "<Dt>" = "<Dt>" := by
    simp [removeUnwantedElements, ReplaceAll, replaceAllChars]
  refine ⟨h1, ?_, h2, ?_⟩
  · rw [h1]; exact ⟨[], [], rfl⟩
  · rw [h2]; exact ⟨[], [], rfl⟩

/-- C11, amended. For every input text `s` in which no `<` is followed by
another `<` before the next `>` (tags are not nested in one another), the output
of `removeUnwantedElements` contains no occurrence of `<p>`, `<P>`, `</p>`,
`</P>`, `<DT>` or `<dt>`. -/
theorem removed_tags_absent (s : String) (h : tagsNotNested s.data = true) :
    ∀ old ∈ removedTags, ¬ occursIn old (removeUnwantedElements s) := by
  intro old hm hocc
  rw [removeUnwantedElements_eq_foldl] at hocc
  obtain ⟨-, h2⟩ := foldl_ReplaceAll_tags removedTags removedTags_tagText s h
  exact (h2 old (removedTags_tagText old hm) hocc).2 old hm rfl

/-- C11, amended, at `sampleExport`, a text in the shape of the tests. -/
theorem removed_tags_absent_witness :
    tagsNotNested sampleExport.data = true ∧
    ∀ old ∈ removedTags, ¬ occursIn old (removeUnwantedElements sampleExport) :=
  ⟨by decide, removed_tags_absent sampleExport (by decide)⟩

/-- C12 at the text `<DT>x</DT></dt>`: the open tag is removed, both close tags stay. -/
theorem close_tags_survive_witness :
    occurrences "</DT>" "<DT>x</DT></dt>" ≤
      occurrences "</DT>" (removeUnwantedElements "<DT>x</DT></dt>") ∧
    occurrences "</dt>" "<DT>x</DT></dt>" ≤
      occurrences "</dt>" (removeUnwantedElements "<DT>x</DT></dt>") :=
  ⟨(close_tags_survive "<DT>x</DT></dt>").1, (close_tags_survive "<DT>x</DT></dt>").2.1⟩

/-- C16 at the root list of the test "Simple folder": stripping leaves the
heading and its list, the list holding the link only, and the result of
`parseDLNode` is the same. -/
theorem non_elements_transparent_witness :
    withoutNonElements simpleFolderList =
      elementNode "dl" [] [myFolderHeading, elementNode "dl" [] [childLink]] ∧
    parseDLNode (withoutNonElements simpleFolderList) = parseDLNode simpleFolderList :=
  ⟨rfl, non_elements_transparent simpleFolderList⟩

/-! ## C10, amended: idempotence on texts without nested tags -/

/-- C10, amended. For every input text `s` in which no `<` is followed by
another `<` before the next `>` (tags are not nested in one another), applying
the preprocessor to its own output yields the same text,
`removeUnwantedElements (removeUnwantedElements s) = removeUnwantedElements s`,
and no removed substring (`<p>`, `<P>`, `</p>`, `</P>`, `<DT>`, `<dt>`) occurs
in the output. -/
theorem preprocessing_idempotent_of_not_nested (s : String)
    (h : tagsNotNested s.data = true) :
    removeUnwantedElements (removeUnwantedElements s) = removeUnwantedElements s ∧
    ∀ old ∈ removedTags, ¬ occursIn old (removeUnwantedElements s) := by
  have habsent : ∀ old ∈ removedTags, ¬ occursIn old (removeUnwantedElements s) := by
    intro old hm hocc
    rw [removeUnwantedElements_eq_foldl] at hocc
    obtain ⟨-, h2⟩ := foldl_ReplaceAll_tags removedTags removedTags_tagText s h
    exact (h2 old (removedTags_tagText old hm) hocc).2 old hm rfl
  refine ⟨?_, habsent⟩
  rw [removeUnwantedElements_eq_foldl (removeUnwantedElements s)]
  exact foldl_ReplaceAll_of_not_occurs removedTags removedTags_ne_empty _ habsent

/-- C10, amended, at `sampleExport`, a text in the shape of the tests, with
paragraph and definition-term tags to remove. -/
theorem preprocessing_idempotent_of_not_nested_witness :
    tagsNotNested sampleExport.data = true ∧
    removeUnwantedElements (removeUnwantedElements sampleExport) =
      removeUnwantedElements sampleExport ∧
    ∀ old ∈ removedTags, ¬ occursIn old (removeUnwantedElements sampleExport) :=
  ⟨by decide, preprocessing_idempotent_of_not_nested sampleExport (by decide)⟩

end NetscapeBookmarks
